import Mathlib

/-!
# Expense tracker: a shallow embedding of `src/App.jsx` and `src/app.jsx`

The two React components keep a ledger of expense records in component state
and derive a filtered view, totals, a per-category breakdown and a budget
percentage from it.  Here the component state is an explicit record, every
event handler is a function from state to state, and every derived value is a
function of the state.

Conventions of the embedding:

* A JavaScript number is `JSNumber`: either `NaN` or a finite value, held as
  a rational.  The operators `+` and `-` of `JSNumber` are exact; the section
  on rounding gives the sums, the category breakdown and the budget
  percentage again with every operator rounded to binary64 (`round64`), and
  the statements that depend on rounding are made there.  Overflow to an
  infinity and the sign of zero are outside the model.
* A JavaScript string is a Lean `String`.
* Built-ins of the host whose result depends on the engine or on the locale
  (`parseFloat`, `Number` on a string, `String.prototype.localeCompare`) are
  fields of a `Host` record that the definitions take as an argument.
  `crypto.randomUUID()` is the argument `uuid` of the handlers that call it.
* A category is one of the seven entries of the constant `categories`; the
  category of a record is only ever set from a `<select>` over that constant.
-/

namespace ExpenseTracker

/-! ## Numbers -/

/-- A JavaScript number: `NaN` or a finite value (an exact rational). -/
inductive JSNumber where
  | nan : JSNumber
  | fin (q : ℚ) : JSNumber
deriving DecidableEq

namespace JSNumber

instance : Inhabited JSNumber := ⟨fin 0⟩

instance : OfNat JSNumber n := ⟨fin n⟩

/-- The global `isNaN` on a number. -/
def isNaN : JSNumber → Bool
  | nan => true
  | fin _ => false

/-- The operator `a + b` on numbers, exact (`Rounded.add` rounds the result). -/
def add : JSNumber → JSNumber → JSNumber
  | fin a, fin b => fin (a + b)
  | _, _ => nan

/-- The operator `a - b` on numbers, exact (`Rounded.sub` rounds the result). -/
def sub : JSNumber → JSNumber → JSNumber
  | fin a, fin b => fin (a - b)
  | _, _ => nan

instance : Add JSNumber := ⟨add⟩
instance : Sub JSNumber := ⟨sub⟩

/-- The operator `a > b`: false as soon as one side is `NaN`. -/
def gt : JSNumber → JSNumber → Bool
  | fin a, fin b => decide (b < a)
  | _, _ => false

/-- The operator `a <= b`: false as soon as one side is `NaN`. -/
def le : JSNumber → JSNumber → Bool
  | fin a, fin b => decide (a ≤ b)
  | _, _ => false

/-- Truthiness of a number (`ToBoolean`): `NaN` and zero are falsy. -/
def truthy : JSNumber → Bool
  | nan => false
  | fin q => decide (q ≠ 0)

/-- The expression `x || 0` for a number `x`. -/
def orZero (x : JSNumber) : JSNumber :=
  if x.truthy then x else fin 0

/-- The finite value of a number, `0` for `NaN` (used in statements only). -/
def toRat : JSNumber → ℚ
  | nan => 0
  | fin q => q

end JSNumber

namespace Math

/-- The built-in `Math.max(a, b)`: `NaN` as soon as one argument is `NaN`. -/
def max : JSNumber → JSNumber → JSNumber
  | .fin a, .fin b => .fin (Max.max a b)
  | _, _ => .nan

/-- The built-in `Math.min(a, b)`: `NaN` as soon as one argument is `NaN`. -/
def min : JSNumber → JSNumber → JSNumber
  | .fin a, .fin b => .fin (Min.min a b)
  | _, _ => .nan

end Math

/-! ## Strings -/

/-- The characters `String.prototype.trim` strips: the ECMAScript `WhiteSpace`
and `LineTerminator` code points. -/
def isWhiteSpace (c : Char) : Bool :=
  c.toNat = 0x09 || c.toNat = 0x0A || c.toNat = 0x0B || c.toNat = 0x0C || c.toNat = 0x0D ||
  c.toNat = 0x20 || c.toNat = 0xA0 || c.toNat = 0x1680 ||
  (0x2000 ≤ c.toNat && c.toNat ≤ 0x200A) ||
  c.toNat = 0x2028 || c.toNat = 0x2029 || c.toNat = 0x202F || c.toNat = 0x205F ||
  c.toNat = 0x3000 || c.toNat = 0xFEFF

/-- The method `s.trim()`: white space removed at both ends. -/
def trim (s : String) : String :=
  ⟨((s.data.dropWhile isWhiteSpace).reverse.dropWhile isWhiteSpace).reverse⟩

/-- The method `s.slice(0, n)`. -/
def slice0 (s : String) (n : Nat) : String :=
  ⟨s.data.take n⟩

/-- The helper `yyyymm = (d) => d?.slice(0, 7)` (a date is always a string here). -/
def yyyymm (d : String) : String :=
  slice0 d 7

/-! ## The host -/

/-- The built-ins taken from the host. -/
structure Host where
  /-- The global `parseFloat` on a string. -/
  parseFloat : String → JSNumber
  /-- The conversion `Number(s)` of a string. -/
  numberOfString : String → JSNumber
  /-- The method `a.localeCompare(b)`: negative, zero or positive. -/
  localeCompare : String → String → Int

/-! ## Data model -/

/-- The entries of the constant `categories`. -/
inductive Category where
  | Food | Transport | Rent | Utilities | Shopping | Other | Income
deriving DecidableEq, Repr

/-- The constant `categories`. -/
def categories : List Category :=
  [.Food, .Transport, .Rent, .Utilities, .Shopping, .Other, .Income]

/-- An expense record.  The fields `_next…` are the pending values the edit
row writes on the record object itself (`e._nextDate = ev.target.value`);
they are absent (`none`) on a record that was never edited. -/
structure Expense where
  id : String
  date : String
  desc : String
  cat : Category
  amt : JSNumber
  _nextDate : Option String := none
  _nextDesc : Option String := none
  _nextCat : Option Category := none
  _nextAmt : Option String := none
deriving DecidableEq

/-- The add form: every field is the text of an input, but the category. -/
structure Form where
  date : String
  desc : String
  cat : Category
  amt : String
deriving DecidableEq

/-- The filter state: `month = ""` and `cat = none` (the option
"All Categories", whose value is the empty string) impose no constraint. -/
structure Filters where
  month : String
  cat : Option Category
deriving DecidableEq

/-- The component state of `App.jsx`. -/
structure State where
  items : List Expense
  budgetMap : List (String × JSNumber)
  form : Form
  filters : Filters
  editingId : Option String
  lastDeleted : Option Expense
deriving DecidableEq

/-! ## Actions of `App.jsx` -/

/-- The handler `addExpense`: the form is validated, and a valid form is
appended to the ledger under the identifier `uuid`. -/
def addExpense (h : Host) (uuid : String) (st : State) : State :=
  let amt := h.parseFloat st.form.amt
  if trim st.form.desc = "" || st.form.date = "" || amt.isNaN || amt.le 0 then st
  else
    { st with
      items := st.items ++
        [{ id := uuid, date := st.form.date, desc := trim st.form.desc,
           cat := st.form.cat, amt := amt }]
      form := { st.form with desc := "", amt := "" } }

/-- The handler `remove`: the record with the identifier is remembered for
undo (`found || null`) and every record with that identifier leaves the ledger. -/
def remove (id : String) (st : State) : State :=
  let found := st.items.find? (fun x => x.id = id)
  { st with
    lastDeleted := found
    items := st.items.filter (fun e => e.id ≠ id) }

/-- The handler `undoDelete`: the remembered record goes back to the head of
the ledger and the undo slot is cleared. -/
def undoDelete (st : State) : State :=
  match st.lastDeleted with
  | none => st
  | some r => { st with items := r :: st.items, lastDeleted := none }

/-- The handler `startEdit`. -/
def startEdit (id : String) (st : State) : State :=
  { st with editingId := some id }

/-- The handler `cancelEdit`. -/
def cancelEdit (st : State) : State :=
  { st with editingId := none }

/-- The object `patch` the Save button builds. -/
structure Patch where
  date : String
  desc : String
  cat : Category
  amt : JSNumber
deriving DecidableEq

/-- The expression `Number(e._nextAmt ?? e.amt)`: the pending text converted by
the host, or the stored number itself. -/
def pendingAmount (h : Host) (e : Expense) : JSNumber :=
  match e._nextAmt with
  | some s => h.numberOfString s
  | none => e.amt

/-- The patch built in the `onClick` of the Save button of the row of `e`. -/
def savePatch (h : Host) (e : Expense) : Patch :=
  { date := e._nextDate.getD e.date
    desc := trim (e._nextDesc.getD e.desc)
    cat := e._nextCat.getD e.cat
    amt := Math.max (.fin (1 / 100)) (pendingAmount h e) }

/-- The object `{ ...e, ...patch }`. -/
def applyPatch (e : Expense) (patch : Patch) : Expense :=
  { e with date := patch.date, desc := patch.desc, cat := patch.cat, amt := patch.amt }

/-- The handler `saveEdit`. -/
def saveEdit (id : String) (patch : Patch) (st : State) : State :=
  { st with
    items := st.items.map (fun e => if e.id = id then applyPatch e patch else e)
    editingId := none }

/-- The `onClick` of the Save button of the row of `e`. -/
def saveClick (h : Host) (e : Expense) (st : State) : State :=
  saveEdit e.id (savePatch h e) st

/-- The `onChange` of the date input of the row of the record `id`:
`e._nextDate = ev.target.value`, written on the record object itself. -/
def onChangeDate (id : String) (v : String) (st : State) : State :=
  { st with
    items := st.items.map (fun e => if e.id = id then { e with _nextDate := some v } else e) }

/-- The `onChange` of the description input of the row of the record `id`. -/
def onChangeDesc (id : String) (v : String) (st : State) : State :=
  { st with
    items := st.items.map (fun e => if e.id = id then { e with _nextDesc := some v } else e) }

/-- The `onChange` of the category select of the row of the record `id`. -/
def onChangeCat (id : String) (v : Category) (st : State) : State :=
  { st with
    items := st.items.map (fun e => if e.id = id then { e with _nextCat := some v } else e) }

/-- The `onChange` of the amount input of the row of the record `id`. -/
def onChangeAmt (id : String) (v : String) (st : State) : State :=
  { st with
    items := st.items.map (fun e => if e.id = id then { e with _nextAmt := some v } else e) }

/-! ## Derived values of `App.jsx` -/

/-- Insertion of `a` into a list, before the first `b` that `a` may precede
(the comparator's result for `(a, b)` is not positive; `NaN` counts as zero). -/
def sortInsert {α : Type} (cmp : α → α → JSNumber) (a : α) : List α → List α
  | [] => [a]
  | b :: l => if (cmp a b).gt 0 then b :: sortInsert cmp a l else a :: b :: l

/-- The method `Array.prototype.sort(cmp)`, which is stable: elements are
inserted from the last to the first, each before the elements it may precede. -/
def sort {α : Type} (cmp : α → α → JSNumber) : List α → List α
  | [] => []
  | a :: l => sortInsert cmp a (sort cmp l)

/-- The predicate of the `filter` call in `filtered`. -/
def matchesFilters (filters : Filters) (e : Expense) : Bool :=
  (filters.month = "" || yyyymm e.date = filters.month) &&
  (filters.cat = none || some e.cat = filters.cat)

/-- The comparator of the `sort` call in `filtered`:
`(a, b) => b.date.localeCompare(a.date)`. -/
def byDateDesc (h : Host) (a b : Expense) : JSNumber :=
  .fin (h.localeCompare b.date a.date)

/-- The memo `filtered`: the visible rows. -/
def filtered (h : Host) (items : List Expense) (filters : Filters) : List Expense :=
  sort (byDateDesc h) (items.filter (matchesFilters filters))

/-- The reduction `records.reduce((s, e) => s + Number(e.amt), 0)`. -/
def sumAmounts (records : List Expense) : JSNumber :=
  records.foldl (fun s e => s + e.amt) 0

/-- The memo `totalVisible`. -/
def totalVisible (h : Host) (items : List Expense) (filters : Filters) : JSNumber :=
  sumAmounts (filtered h items filters)

/-- The memo `totalThisMonth`, for the key `thisKey` of the current month. -/
def totalThisMonth (items : List Expense) (thisKey : String) : JSNumber :=
  sumAmounts (items.filter (fun e => yyyymm e.date = thisKey))

/-- The lookup `budgetMap[thisKey] || 0`. -/
def monthBudget (budgetMap : List (String × JSNumber)) (thisKey : String) : JSNumber :=
  match budgetMap.lookup thisKey with
  | some v => v.orZero
  | none => 0

/-- Whether the budget bar is rendered: `monthBudget > 0 && (...)`. -/
def budgetBarShown (budget : JSNumber) : Bool :=
  budget.gt 0

/-- Whether the text "— over budget!" is rendered: inside the budget bar,
`totalThisMonth > monthBudget && "— over budget!"`. -/
def overBudgetShown (total budget : JSNumber) : Bool :=
  budgetBarShown budget && total.gt budget

/-- The read `map[k]` of the object `map` of `byCat`. -/
def mapGet (map : List (Category × JSNumber)) (k : Category) : Option JSNumber :=
  map.lookup k

/-- The write `map[k] = v`: an existing key keeps its place, a new key goes
last (property order of an object with string keys). -/
def mapSet (k : Category) (v : JSNumber) :
    List (Category × JSNumber) → List (Category × JSNumber)
  | [] => [(k, v)]
  | (k', v') :: rest => if k' = k then (k, v) :: rest else (k', v') :: mapSet k v rest

/-- The expression `map[e.cat] || 0`. -/
def mapGetOrZero (map : List (Category × JSNumber)) (k : Category) : JSNumber :=
  match mapGet map k with
  | some v => v.orZero
  | none => 0

/-- The object `map` after the `forEach` of `byCat`. -/
def categoryMap (records : List Expense) : List (Category × JSNumber) :=
  records.foldl (fun map e => mapSet e.cat (mapGetOrZero map e.cat + e.amt) map) []

/-- The value of the memo `byCat` for the rows `records`:
`Object.entries(map).sort((a, b) => b[1] - a[1])`. -/
def groupByCategory (records : List Expense) : List (Category × JSNumber) :=
  sort (fun a b => b.2 - a.2) (categoryMap records)

/-- The memo `byCat`. -/
def byCat (h : Host) (items : List Expense) (filters : Filters) :
    List (Category × JSNumber) :=
  groupByCategory (filtered h items filters)

/-- The handler `setBudgetForMonth`, for the text `v` of the budget input:
`Math.max(0, Number(v) || 0)` is stored under `thisKey`. -/
def setBudgetForMonth (h : Host) (thisKey : String) (v : String) (st : State) : State :=
  let n := Math.max 0 (h.numberOfString v).orZero
  { st with budgetMap := (thisKey, n) :: st.budgetMap.filter (fun p => p.1 ≠ thisKey) }

/-! ## Display and export in `App.jsx` -/

/-- The conversions of a number to text, which the host performs. -/
structure Formatter where
  /-- The conversion `String(x)` of a number. -/
  numberToString : JSNumber → String
  /-- The call `n.toLocaleString(undefined, { style: "currency", currency: "USD" })`. -/
  toLocaleString : JSNumber → String

/-- The helper `currency`: `(Number(n) || 0)` formatted as an amount of money. -/
def currency (f : Formatter) (n : JSNumber) : String :=
  f.toLocaleString n.orZero

/-- The text of a category, which is the value the record holds in JavaScript. -/
def Category.name : Category → String
  | .Food => "Food"
  | .Transport => "Transport"
  | .Rent => "Rent"
  | .Utilities => "Utilities"
  | .Shopping => "Shopping"
  | .Other => "Other"
  | .Income => "Income"

/-- The double quote character (code point 34). -/
def dquote : Char := Char.ofNat 34

/-- The call `s.replaceAll(dq, dq + dq)` for the double quote `dq`, on the
characters of `s`: every double quote is written twice. -/
def doubleQuotes : List Char → List Char
  | [] => []
  | c :: rest =>
    if c = dquote then dquote :: dquote :: doubleQuotes rest else c :: doubleQuotes rest

/-- The cell text of `exportCsv`: the value with its double quotes doubled,
between two double quotes. -/
def quote (s : String) : String :=
  ⟨dquote :: (doubleQuotes s.data ++ [dquote])⟩

/-- The constant `rows` of `exportCsv`: the header and one row per record.  The
cells are held as text: the conversion `String(x)` of the source, which only
changes the amount, is applied here. -/
def rows (f : Formatter) (items : List Expense) : List (List String) :=
  ["date", "description", "category", "amount"] ::
    items.map (fun e => [e.date, e.desc, e.cat.name, f.numberToString e.amt])

/-- The constant `csv` of `exportCsv`: cells joined by commas, rows by line feeds. -/
def csv (f : Formatter) (items : List Expense) : String :=
  "\n".intercalate ((rows f items).map (fun r => ",".intercalate (r.map quote)))

/-- The handler `exportCsv`, as the text of the file it offers for download. -/
def exportCsv (f : Formatter) (items : List Expense) : String :=
  csv f items

/-! ## The same derived values with the rounding of the arithmetic made explicit

The operators of `JSNumber` above are exact.  The host computes on binary64
values, where the result of every `+`, `-`, `*` and `/` is rounded.  The
definitions of this section are the source's expressions again, with the
rounding `rnd` applied after each operator; `round64` is the rounding of the
host.  Comparisons, `Math.min` and `Math.max` do not round. -/

/-- The power `2 ^ e` for an integer exponent. -/
def pow2 (e : ℤ) : ℚ :=
  if 0 ≤ e then ((2 ^ e.toNat : ℕ) : ℚ) else 1 / ((2 ^ (-e).toNat : ℕ) : ℚ)

/-- The exponent of the leading binary digit of `n`, found in at most `fuel` halvings. -/
def floorLog2Aux : ℕ → ℕ → ℕ
  | 0, _ => 0
  | fuel + 1, n => if 2 ≤ n then floorLog2Aux fuel (n / 2) + 1 else 0

/-- The exponent of the leading binary digit of `n`: the largest `k` with
`2 ^ k ≤ n`, and 0 for `n = 0`. -/
def floorLog2 (n : ℕ) : ℕ :=
  floorLog2Aux n n

/-- The nearest integer to a non-negative rational, a tie going to the even one. -/
def roundHalfEven (n : ℚ) : ℕ :=
  let fl := n.num.natAbs / n.den
  let frac := n - fl
  if frac < 1 / 2 then fl
  else if 1 / 2 < frac then fl + 1
  else if fl % 2 = 0 then fl else fl + 1

/-- Rounding to the nearest binary64 value, ties to even, with gradual
underflow (IEEE 754 `roundTiesToEven`).  Overflow to an infinity is outside
the model: above the largest binary64 value the exponent range is taken as
unbounded. -/
def round64 (q : ℚ) : ℚ :=
  if q = 0 then 0
  else
    let a := |q|
    let e0 : ℤ := (floorLog2 a.num.natAbs : ℤ) - (floorLog2 a.den : ℤ)
    let e := if pow2 e0 ≤ a then e0 else e0 - 1
    let ulp := pow2 (max e (-1022) - 52)
    let r := (roundHalfEven (a / ulp) : ℚ) * ulp
    if q < 0 then -r else r

namespace Rounded

/-- The operator `a + b` with its result rounded. -/
def add (rnd : ℚ → ℚ) : JSNumber → JSNumber → JSNumber
  | .fin a, .fin b => .fin (rnd (a + b))
  | _, _ => .nan

/-- The operator `a - b` with its result rounded. -/
def sub (rnd : ℚ → ℚ) : JSNumber → JSNumber → JSNumber
  | .fin a, .fin b => .fin (rnd (a - b))
  | _, _ => .nan

/-- The operator `a * b` with its result rounded. -/
def mul (rnd : ℚ → ℚ) : JSNumber → JSNumber → JSNumber
  | .fin a, .fin b => .fin (rnd (a * b))
  | _, _ => .nan

/-- The operator `a / b` with its result rounded; a zero divisor gives `NaN`
here, and no modelled call site divides by zero. -/
def div (rnd : ℚ → ℚ) : JSNumber → JSNumber → JSNumber
  | .fin a, .fin b => if b = 0 then .nan else .fin (rnd (a / b))
  | _, _ => .nan

/-- The reduction `records.reduce((s, e) => s + Number(e.amt), 0)`. -/
def sumAmounts (rnd : ℚ → ℚ) (records : List Expense) : JSNumber :=
  records.foldl (fun s e => add rnd s e.amt) 0

/-- The object `map` after the `forEach` of `byCat`. -/
def categoryMap (rnd : ℚ → ℚ) (records : List Expense) : List (Category × JSNumber) :=
  records.foldl (fun map e => mapSet e.cat (add rnd (mapGetOrZero map e.cat) e.amt) map) []

/-- The value of the memo `byCat` for the rows `records`:
`Object.entries(map).sort((a, b) => b[1] - a[1])`. -/
def groupByCategory (rnd : ℚ → ℚ) (records : List Expense) : List (Category × JSNumber) :=
  sort (fun a b => sub rnd b.2 a.2) (categoryMap rnd records)

/-- The total of the entries of `byCat`, added in the order of the entries. -/
def entriesTotal (rnd : ℚ → ℚ) (entries : List (Category × JSNumber)) : JSNumber :=
  entries.foldl (fun s p => add rnd s p.2) 0

/-- The constant `pct`:
`monthBudget > 0 ? Math.min(100, (totalThisMonth / monthBudget) * 100) : 0`. -/
def pct (rnd : ℚ → ℚ) (total budget : JSNumber) : JSNumber :=
  if budget.gt 0 then Math.min 100 (mul rnd (div rnd total budget) 100) else 0

/-- The specification's formula `min(100, 100 * total / budget)`, evaluated
with the same operators from left to right. -/
def pctFormula (rnd : ℚ → ℚ) (total budget : JSNumber) : JSNumber :=
  Math.min 100 (div rnd (mul rnd 100 total) budget)

end Rounded

/-! ## `app.jsx`: the component without edit, undo and budget -/

namespace Basic

/-- The component state of `app.jsx`. -/
structure State where
  items : List Expense
  form : Form
  filters : Filters
deriving DecidableEq

/-- The handler `add` of `app.jsx`: the record is `{ id, ...form, amt }`, so
the description is stored as typed. -/
def add (h : Host) (uuid : String) (st : State) : State :=
  let amt := h.parseFloat st.form.amt
  if trim st.form.desc = "" || st.form.date = "" || amt.isNaN || amt.le 0 then st
  else
    { st with
      items := st.items ++
        [{ id := uuid, date := st.form.date, desc := st.form.desc,
           cat := st.form.cat, amt := amt }]
      form := { st.form with desc := "", amt := "" } }

/-- The handler `remove` of `app.jsx`. -/
def remove (id : String) (st : State) : State :=
  { st with items := st.items.filter (fun e => e.id ≠ id) }

end Basic

/-! ## A host for the examples -/

/-- The value of a string of decimal digits, `none` when another character occurs. -/
def digitsValue (cs : List Char) : Option ℕ :=
  cs.foldl (fun acc c => acc.bind fun n => if c.isDigit then some (n * 10 + (c.toNat - 48)) else none)
    (some 0)

/-- A reader of plain decimal literals `[-]digits[.digits]`; anything else is `NaN`. -/
def readDecimal (s : String) : JSNumber :=
  let cs := (trim s).data
  let neg := cs.head? = some '-'
  let body := if neg then cs.drop 1 else cs
  let ip := body.takeWhile (fun c => c ≠ '.')
  let fp := (body.dropWhile (fun c => c ≠ '.')).drop 1
  if ip.isEmpty && fp.isEmpty then .nan
  else
    match digitsValue ip, digitsValue fp with
    | some i, some f =>
      let q : ℚ := (i : ℚ) + (f : ℚ) / (10 : ℚ) ^ fp.length
      .fin (if neg then -q else q)
    | _, _ => .nan

/-- Comparison of two sequences of characters by code point: `-1`, `0` or `1`. -/
def compareChars : List Char → List Char → Int
  | [], [] => 0
  | [], _ :: _ => -1
  | _ :: _, [] => 1
  | a :: as, b :: bs =>
    if a.toNat < b.toNat then -1 else if b.toNat < a.toNat then 1 else compareChars as bs

/-- Comparison of strings by code point: `-1`, `0` or `1`. -/
def compareCodePoints (a b : String) : Int :=
  compareChars a.data b.data

/-- A host for the examples: decimal literals are read exactly and strings are
compared by code point (which is how a collation orders ISO dates). -/
def sampleHost : Host :=
  { parseFloat := readDecimal
    numberOfString := fun s => if trim s = "" then 0 else readDecimal s
    localeCompare := compareCodePoints }

/-- The digits of `n`, padded with zeros on the left to `k` characters. -/
def padDigits (k n : Nat) : String :=
  let s := toString n
  ⟨List.replicate (k - s.length) '0' ++ s.data⟩

/-- The decimal text of a non-negative rational with at most six decimals,
`none` for any other rational. -/
def decimalText (a : ℚ) : Option String :=
  ((List.range 7).find? (fun k => (a * 10 ^ k).den = 1)).map fun k =>
    let n := (a * 10 ^ k).num.natAbs
    if k = 0 then toString n else toString (n / 10 ^ k) ++ "." ++ padDigits k (n % 10 ^ k)

/-- A printer of numbers for the examples: `NaN`, or the decimal text with a
minus sign when negative, or `numerator/denominator` when the decimal text
would need more than six decimals. -/
def showNumber : JSNumber → String
  | .nan => "NaN"
  | .fin q =>
    match decimalText |q| with
    | some s => if q < 0 then "-" ++ s else s
    | none => toString q.num ++ "/" ++ toString q.den

/-- A formatter for the examples. -/
def sampleFormatter : Formatter :=
  { numberToString := showNumber
    toLocaleString := fun n => "$" ++ showNumber n }

/-! ## Reading a cell back, as the specification words it -/

/-- The un-doubling of double quotes: two double quotes in a row stand for one,
a double quote on its own is an error. -/
def undouble : List Char → Option (List Char)
  | [] => some []
  | [c] => if c = dquote then none else some [c]
  | c :: d :: rest =>
    if c = dquote then
      if d = dquote then (undouble rest).map (fun l => dquote :: l) else none
    else (undouble (d :: rest)).map (fun l => c :: l)

/-- The specification's reading of a cell: the outer double quotes are stripped
and the inner ones un-doubled; `none` when the text is not a quoted cell. -/
def unquote (s : String) : Option String :=
  match s.data with
  | [] => none
  | c :: rest =>
    if c = dquote ∧ rest.getLast? = some dquote then (undouble rest.dropLast).map String.mk
    else none

/-! ## Well-formed dates, as the specification words them -/

/-- The number of days of month `m` of year `y` in the Gregorian calendar. -/
def daysInMonth (y m : Nat) : Nat :=
  if m = 2 then
    if (y % 4 = 0 ∧ y % 100 ≠ 0) ∨ y % 400 = 0 then 29 else 28
  else if m = 4 ∨ m = 6 ∨ m = 9 ∨ m = 11 then 30
  else 31

/-- The specification's "valid, well-formed ISO 8601 calendar date
(YYYY-MM-DD)": ten characters, digits around two hyphens, a month from 1 to
12 and a day that exists in that month.  No function of the source computes
this; it is the reading of the specification against which `addExpense` is
compared. -/
def isIsoDate (s : String) : Bool :=
  match s.data with
  | [y1, y2, y3, y4, '-', m1, m2, '-', d1, d2] =>
    let v (c : Char) : Nat := c.toNat - 48
    let y := v y1 * 1000 + v y2 * 100 + v y3 * 10 + v y4
    let m := v m1 * 10 + v m2
    let d := v d1 * 10 + v d2
    [y1, y2, y3, y4, m1, m2, d1, d2].all Char.isDigit &&
      decide (1 ≤ m) && decide (m ≤ 12) && decide (1 ≤ d) && decide (d ≤ daysInMonth y m)
  | _ => false

/-! ## Notions used in the statements -/

/-- The element `a` may precede `b` in the result of `sort`: the comparator's
result for `(a, b)` is not positive. -/
def MayPrecede {α : Type} (cmp : α → α → JSNumber) (a b : α) : Prop :=
  (cmp a b).gt 0 = false

/-- The condition the specification gives for a record to be visible: the
month is unset or equals the year-month prefix of the record's date (its
first seven characters), and the category is unset or equals the record's. -/
def Visible (filters : Filters) (e : Expense) : Prop :=
  (filters.month = "" ∨ e.date.data.take 7 = filters.month.data) ∧
  (filters.cat = none ∨ filters.cat = some e.cat)

instance (filters : Filters) (e : Expense) : Decidable (Visible filters e) := by
  unfold Visible; infer_instance

/-- The rational sum of the amounts of a list of records (`NaN` counts as 0). -/
def amountsTotal (records : List Expense) : ℚ :=
  (records.map (fun e => e.amt.toRat)).sum

/-- The rational sum of the values of the object `map` (`NaN` counts as 0). -/
def valuesTotal (m : List (Category × JSNumber)) : ℚ :=
  (m.map (fun p => p.2.toRat)).sum

/-- The rational sum of the amounts of the records of category `c`. -/
def categoryTotal (records : List Expense) (c : Category) : ℚ :=
  amountsTotal (records.filter (fun e => e.cat = c))

/-- The record invariant of the data model, without the clause on the date. -/
def recordOk (e : Expense) : Bool :=
  e.amt.gt 0 && e.desc ≠ ""

/-- The invariant on a state: every record of the ledger and the record in the
undo slot satisfy the record invariant. -/
def LedgerOk (st : State) : Prop :=
  (∀ e ∈ st.items, recordOk e = true) ∧ (∀ r, st.lastDeleted = some r → recordOk r = true)

instance (st : State) : Decidable (LedgerOk st) := by
  unfold LedgerOk
  cases h : st.lastDeleted with
  | none => exact decidable_of_iff (∀ e ∈ st.items, recordOk e = true) (by simp)
  | some r =>
    exact decidable_of_iff ((∀ e ∈ st.items, recordOk e = true) ∧ recordOk r = true) (by simp)

/-! ## Example data -/

/-- A state with an empty ledger and the given add form. -/
def emptyState (form : Form) : State :=
  { items := [], budgetMap := [], form := form, filters := ⟨"", none⟩,
    editingId := none, lastDeleted := none }

/-- A form whose description is white space only. -/
def blankForm : Form := ⟨"2024-03-01", " \t ", .Food, "4.5"⟩

/-- A form whose date is the empty string. -/
def undatedForm : Form := ⟨"", "Coffee", .Food, "4.5"⟩

/-- A form whose date is not a date. -/
def malformedDateForm : Form := ⟨"not-a-date", "Coffee", .Food, "4.5"⟩

/-- The form of the specification's example. -/
def coffeeForm : Form := ⟨"2024-03-01", "Coffee", .Food, "4.5"⟩

/-- A food record of March 2024 (with `bus` and `tea`: three records over two
categories and two months). -/
def coffee : Expense :=
  { id := "a", date := "2024-03-01", desc := "Coffee", cat := .Food, amt := .fin (9 / 2) }

/-- A transport record of March 2024. -/
def bus : Expense :=
  { id := "b", date := "2024-03-05", desc := "Bus", cat := .Transport, amt := .fin 2 }

/-- A food record of February 2024. -/
def tea : Expense :=
  { id := "c", date := "2024-02-05", desc := "Tea", cat := .Food, amt := .fin 3 }

/-- A state whose ledger holds the three example records. -/
def ledgerState : State :=
  { emptyState coffeeForm with items := [coffee, bus, tea] }

/-- The record `coffee` while its row is edited: the description input holds
three spaces. -/
def coffeeBlanked : Expense := { coffee with _nextDesc := some "   " }

/-- The record `coffee` while its row is edited: the amount input holds `abc`. -/
def coffeeNonNumeric : Expense := { coffee with _nextAmt := some "abc" }

/-- The state whose ledger is the single record `e`. -/
def singleLedger (e : Expense) : State :=
  { emptyState coffeeForm with items := [e] }

/-- The record `bus` with an amount that is not a number. -/
def busNaN : Expense := { bus with amt := .nan }

/-- A record whose description holds double quotes, a comma and a line feed. -/
def quip : Expense :=
  { id := "d", date := "2024-03-09", desc := "He said \x22hi\x22, twice\nand left",
    cat := .Other, amt := .fin (5 / 4) }

/-- A food record of 0.1, as binary64 holds it. -/
def dimeFood : Expense :=
  { id := "e", date := "2024-03-01", desc := "Gum", cat := .Food, amt := .fin (round64 (1 / 10)) }

/-- A transport record of 0.1, as binary64 holds it. -/
def dimeTransport : Expense :=
  { id := "f", date := "2024-03-01", desc := "Toll", cat := .Transport,
    amt := .fin (round64 (1 / 10)) }

/-- A food record of 1.1, as binary64 holds it. -/
def snack : Expense :=
  { id := "g", date := "2024-03-01", desc := "Snack", cat := .Food,
    amt := .fin (round64 (11 / 10)) }

/-- A form with the amount 0.001. -/
def pennyForm : Form := ⟨"2024-03-01", "Gum", .Food, "0.001"⟩

/-- The record `addExpense` makes of `pennyForm`. -/
def penny : Expense :=
  { id := "p", date := "2024-03-01", desc := "Gum", cat := .Food, amt := .fin (1 / 1000) }

/-- The record `tea` after `Chai` was typed in the description input of its row. -/
def teaPending : Expense := { tea with _nextDesc := some "Chai" }

/-! ## Lemmas on strings -/

theorem dropWhile_all_of_forall {α : Type} (p : α → Bool) (l : List α)
    (hl : ∀ x ∈ l.dropWhile p, p x = true) : l.dropWhile p = [] := by
  cases hd : l.dropWhile p with
  | nil => rfl
  | cons a t =>
    have h1 : p a = true := hl a (by rw [hd]; exact List.mem_cons_self _ _)
    have h2 := List.head_dropWhile_not p l (by rw [hd]; simp)
    simp [hd] at h2
    rw [h1] at h2
    exact absurd h2 (by simp)

/-- A string trims to the empty string exactly when it holds white space only. -/
theorem trim_eq_empty_iff (s : String) :
    trim s = "" ↔ ∀ c ∈ s.data, isWhiteSpace c = true := by
  constructor
  · intro h
    have h1 : ((s.data.dropWhile isWhiteSpace).reverse.dropWhile isWhiteSpace).reverse = [] := by
      have := congrArg String.data h
      simpa [trim] using this
    rw [List.reverse_eq_nil_iff, List.dropWhile_eq_nil_iff] at h1
    have h2 : s.data.dropWhile isWhiteSpace = [] :=
      dropWhile_all_of_forall _ _ (fun x hx => h1 x (List.mem_reverse.mpr hx))
    exact List.dropWhile_eq_nil_iff.mp h2
  · intro h
    have h2 : s.data.dropWhile isWhiteSpace = [] := List.dropWhile_eq_nil_iff.mpr h
    simp [trim, h2]

/-! ## Adding a record -/

/-- The guard of `addExpense` and of `add`, as a condition on the form. -/
theorem guard_of_blank_or_nonpositive (h : Host) (form : Form)
    (hbad : (∀ c ∈ form.desc.data, isWhiteSpace c = true) ∨
      h.parseFloat form.amt = .nan ∨
      ∃ q : ℚ, h.parseFloat form.amt = .fin q ∧ q ≤ 0) :
    (trim form.desc = "" || form.date = "" || (h.parseFloat form.amt).isNaN ||
      (h.parseFloat form.amt).le 0) = true := by
  rcases hbad with hd | hn | ⟨q, hq, hle⟩
  · simp [(trim_eq_empty_iff form.desc).mpr hd]
  · simp [hn, JSNumber.isNaN]
  · have : (JSNumber.fin q).le 0 = true := by
      show decide (q ≤ ((0 : ℕ) : ℚ)) = true
      simpa using hle
    simp [hq, this]

/-- C1: a form whose description is empty or white space only, or whose amount
does not parse to a number or parses to a number `≤ 0`, is ignored: `addExpense`
of `App.jsx` and `add` of `app.jsx` return the state they were given, so the
ledger keeps the same records in the same order. -/
theorem addExpense_rejects_blank_or_nonpositive (h : Host) (uuid : String) (form : Form)
    (hbad : (∀ c ∈ form.desc.data, isWhiteSpace c = true) ∨
      h.parseFloat form.amt = .nan ∨
      ∃ q : ℚ, h.parseFloat form.amt = .fin q ∧ q ≤ 0) :
    (∀ st : State, st.form = form → addExpense h uuid st = st) ∧
    (∀ st : Basic.State, st.form = form → Basic.add h uuid st = st) := by
  have key := guard_of_blank_or_nonpositive h form hbad
  constructor
  · intro st hst
    subst hst
    unfold addExpense
    simp only [key, if_true]
  · intro st hst
    subst hst
    unfold Basic.add
    simp only [key, if_true]

/-- Witness of C1 at a form whose description is a space, a tab and a space. -/
theorem addExpense_rejects_blank_or_nonpositive_witness :
    ((∀ c ∈ blankForm.desc.data, isWhiteSpace c = true) ∨
      sampleHost.parseFloat blankForm.amt = .nan ∨
      ∃ q : ℚ, sampleHost.parseFloat blankForm.amt = .fin q ∧ q ≤ 0) ∧
    ((∀ st : State, st.form = blankForm → addExpense sampleHost "u1" st = st) ∧
     (∀ st : Basic.State, st.form = blankForm → Basic.add sampleHost "u1" st = st)) :=
  ⟨Or.inl (by decide),
    addExpense_rejects_blank_or_nonpositive sampleHost "u1" blankForm (Or.inl (by decide))⟩

/-- The guard of `addExpense` fails on a valid form. -/
theorem guard_of_valid (h : Host) (form : Form) (q : ℚ)
    (hdesc : trim form.desc ≠ "") (hdate : form.date ≠ "")
    (hamt : h.parseFloat form.amt = .fin q) (hq : 0 < q) :
    (trim form.desc = "" || form.date = "" || (h.parseFloat form.amt).isNaN ||
      (h.parseFloat form.amt).le 0) = false := by
  have : (JSNumber.fin q).le 0 = false := by
    show decide (q ≤ ((0 : ℕ) : ℚ)) = false
    simpa using hq
  simp [hdesc, hdate, hamt, this, JSNumber.isNaN]

/-- C2, as stated, fails: the date `"not-a-date"` is not a calendar date, the
description is not blank and the amount parses to `4.5`, and `addExpense`
changes the ledger. -/
theorem addExpense_malformed_date_appends :
    isIsoDate malformedDateForm.date = false ∧
    trim malformedDateForm.desc ≠ "" ∧
    sampleHost.parseFloat malformedDateForm.amt = .fin (9 / 2) ∧
    (addExpense sampleHost "u1" (emptyState malformedDateForm)).items ≠
      (emptyState malformedDateForm).items := by
  decide!

/-- C2, amended: a form whose date is the empty string is ignored, whatever its
description and amount: `addExpense` returns the state it was given. -/
theorem addExpense_rejects_empty_date (h : Host) (uuid : String) (st : State)
    (hdate : st.form.date = "") :
    addExpense h uuid st = st := by
  unfold addExpense
  simp [hdate]

/-- Witness of the amended C2: an empty date with the description `"Coffee"`
and the amount `4.5`. -/
theorem addExpense_rejects_empty_date_witness :
    (emptyState undatedForm).form.date = "" ∧
    trim (emptyState undatedForm).form.desc ≠ "" ∧
    sampleHost.parseFloat (emptyState undatedForm).form.amt = .fin (9 / 2) ∧
    addExpense sampleHost "u1" (emptyState undatedForm) = emptyState undatedForm :=
  ⟨by decide, by decide, by decide!,
    addExpense_rejects_empty_date sampleHost "u1" (emptyState undatedForm) (by decide)⟩

/-! ## Lemmas on `sort` -/

theorem sortInsert_perm {α : Type} (cmp : α → α → JSNumber) (a : α) (l : List α) :
    (sortInsert cmp a l).Perm (a :: l) := by
  induction l with
  | nil => exact List.Perm.refl _
  | cons b l ih =>
    unfold sortInsert
    split
    · exact ((List.Perm.cons b ih).trans (List.Perm.swap a b l))
    · exact List.Perm.refl _

/-- The result of `sort` is a rearrangement of its argument. -/
theorem sort_perm {α : Type} (cmp : α → α → JSNumber) (l : List α) :
    (sort cmp l).Perm l := by
  induction l with
  | nil => exact List.Perm.refl _
  | cons a l ih =>
    exact (sortInsert_perm cmp a (sort cmp l)).trans (List.Perm.cons a ih)

theorem mem_sort {α : Type} (cmp : α → α → JSNumber) (l : List α) (x : α) :
    x ∈ sort cmp l ↔ x ∈ l :=
  (sort_perm cmp l).mem_iff

/-! ## Adding a valid record -/

/-- C3: on a valid form (the description does not trim to the empty string,
the date is not empty, the amount parses to a number `q > 0`) `addExpense`
makes the ledger the old ledger followed by one new record, so the length
grows by exactly one and the previous records keep their values and order;
the new record carries the form's date and category, the trimmed description
and the parsed amount, and it is among the rows of `filtered` when no filter
is set.  The specification's example (date `2024-03-01`, description
`Coffee`, category `Food`, amount `4.5`) is the witness. -/
theorem addExpense_valid_appends (h : Host) (uuid : String) (st : State) (q : ℚ)
    (hdesc : trim st.form.desc ≠ "") (hdate : st.form.date ≠ "")
    (hamt : h.parseFloat st.form.amt = .fin q) (hq : 0 < q) :
    ∃ r : Expense,
      r.date = st.form.date ∧ r.desc = trim st.form.desc ∧ r.cat = st.form.cat ∧
      r.amt = .fin q ∧ r.id = uuid ∧
      (addExpense h uuid st).items = st.items ++ [r] ∧
      (addExpense h uuid st).items.length = st.items.length + 1 ∧
      r ∈ filtered h (addExpense h uuid st).items ⟨"", none⟩ := by
  have key := guard_of_valid h st.form q hdesc hdate hamt hq
  have hitems : (addExpense h uuid st).items = st.items ++
      [{ id := uuid, date := st.form.date, desc := trim st.form.desc,
         cat := st.form.cat, amt := .fin q }] := by
    rw [hamt] at key
    unfold addExpense
    simp only [hamt, key, Bool.false_eq_true, if_false]
  refine ⟨_, rfl, rfl, rfl, rfl, rfl, hitems, ?_, ?_⟩
  · rw [hitems]; simp
  · rw [hitems]
    unfold filtered
    rw [mem_sort]
    simp [matchesFilters]

/-- Witness of C3: the specification's example added to a ledger of three records. -/
theorem addExpense_valid_appends_witness :
    (trim ledgerState.form.desc ≠ "" ∧ ledgerState.form.date ≠ "" ∧
      sampleHost.parseFloat ledgerState.form.amt = .fin (9 / 2) ∧ (0 : ℚ) < 9 / 2) ∧
    ∃ r : Expense,
      r.date = ledgerState.form.date ∧ r.desc = trim ledgerState.form.desc ∧
      r.cat = ledgerState.form.cat ∧ r.amt = .fin (9 / 2) ∧ r.id = "u1" ∧
      (addExpense sampleHost "u1" ledgerState).items = ledgerState.items ++ [r] ∧
      (addExpense sampleHost "u1" ledgerState).items.length = ledgerState.items.length + 1 ∧
      r ∈ filtered sampleHost (addExpense sampleHost "u1" ledgerState).items ⟨"", none⟩ :=
  ⟨⟨by decide, by decide, by decide!, by norm_num⟩,
    addExpense_valid_appends sampleHost "u1" ledgerState (9 / 2) (by decide) (by decide)
      (by decide!) (by norm_num)⟩

/-! ## Removing and undoing -/

theorem find_id_of_nodup (items : List Expense) (r : Expense)
    (hnodup : (items.map (fun e => e.id)).Nodup) (hr : r ∈ items) :
    items.find? (fun x => x.id = r.id) = some r := by
  induction items with
  | nil => cases hr
  | cons a l ih =>
    rw [List.map_cons, List.nodup_cons] at hnodup
    rcases List.mem_cons.mp hr with rfl | hmem
    · simp
    · have hne : a.id ≠ r.id := by
        intro heq
        exact hnodup.1 (heq ▸ List.mem_map_of_mem _ hmem)
      simp [List.find?, hne, ih hnodup.2 hmem]

theorem eq_of_id_eq_of_nodup (items : List Expense) (r e : Expense)
    (hnodup : (items.map (fun e => e.id)).Nodup) (hr : r ∈ items) (he : e ∈ items)
    (hid : e.id = r.id) : e = r :=
  List.inj_on_of_nodup_map hnodup he hr hid

/-- C4: in a ledger whose identifiers are pairwise distinct, `remove` of the
identifier of a record `r` of the ledger followed by `undoDelete` gives the
ledger that starts with `r` itself (the whole record, so every field is the
original one) and goes on with the other records in their original order; the
result is a rearrangement of the original ledger and the undo slot is empty. -/
theorem remove_undoDelete_restores (st : State) (id : String) (r : Expense)
    (hnodup : (st.items.map (fun e => e.id)).Nodup) (hr : r ∈ st.items) (hid : r.id = id) :
    (undoDelete (remove id st)).items = r :: st.items.filter (fun e => e ≠ r) ∧
    (undoDelete (remove id st)).items.Perm st.items ∧
    (undoDelete (remove id st)).lastDeleted = none := by
  subst hid
  have hfind := find_id_of_nodup st.items r hnodup hr
  have hfilter : st.items.filter (fun e => e.id ≠ r.id) = st.items.filter (fun e => e ≠ r) := by
    apply List.filter_congr
    intro e he
    by_cases heq : e = r
    · subst heq; simp
    · have : e.id ≠ r.id := fun hid => heq (eq_of_id_eq_of_nodup st.items r e hnodup hr he hid)
      simp [heq, this]
  have hitems : (undoDelete (remove r.id st)).items = r :: st.items.filter (fun e => e ≠ r) := by
    simp only [undoDelete, remove, hfind, hfilter]
  refine ⟨hitems, ?_, ?_⟩
  · rw [hitems]
    have hnd : st.items.Nodup := List.Nodup.of_map _ hnodup
    have herase : st.items.filter (fun e => e ≠ r) = st.items.erase r := by
      rw [hnd.erase_eq_filter r]
      apply List.filter_congr
      intro x _
      by_cases hx : x = r <;> simp [hx]
    rw [herase]
    exact (List.perm_cons_erase hr).symm
  · simp only [undoDelete, remove, hfind]

/-- Witness of C4: the second of three records is removed and restored. -/
theorem remove_undoDelete_restores_witness :
    ((ledgerState.items.map (fun e => e.id)).Nodup ∧ bus ∈ ledgerState.items ∧ bus.id = "b") ∧
    ((undoDelete (remove "b" ledgerState)).items =
        bus :: ledgerState.items.filter (fun e => e ≠ bus) ∧
      (undoDelete (remove "b" ledgerState)).items.Perm ledgerState.items ∧
      (undoDelete (remove "b" ledgerState)).lastDeleted = none) :=
  ⟨⟨by decide, by decide!, by decide⟩,
    remove_undoDelete_restores ledgerState "b" bus (by decide) (by decide!) (by decide)⟩

/-! ## Order and stability of `sort` -/

theorem sortInsert_pairwise {α : Type} (cmp : α → α → JSNumber) (P : α → Prop)
    (htotal : ∀ a b, P a → P b → MayPrecede cmp a b ∨ MayPrecede cmp b a)
    (htrans : ∀ a b c, P a → P b → P c →
      MayPrecede cmp a b → MayPrecede cmp b c → MayPrecede cmp a c)
    (a : α) (l : List α) (ha : P a) (hl : ∀ x ∈ l, P x)
    (hs : l.Pairwise (MayPrecede cmp)) :
    (sortInsert cmp a l).Pairwise (MayPrecede cmp) := by
  induction l with
  | nil => simp [sortInsert]
  | cons b l ih =>
    have hb : P b := hl b (List.mem_cons_self _ _)
    have hl' : ∀ x ∈ l, P x := fun x hx => hl x (List.mem_cons_of_mem _ hx)
    rw [List.pairwise_cons] at hs
    unfold sortInsert
    split
    next hgt =>
      rw [List.pairwise_cons]
      refine ⟨?_, ih hl' hs.2⟩
      intro x hx
      rcases List.mem_cons.mp ((sortInsert_perm cmp a l).mem_iff.mp hx) with rfl | hx
      · rcases htotal x b ha hb with h1 | h1
        · exact absurd hgt (by rw [show (cmp x b).gt 0 = false from h1]; simp)
        · exact h1
      · exact hs.1 x hx
    next hgt =>
      have hab : MayPrecede cmp a b := by simpa [MayPrecede] using hgt
      rw [List.pairwise_cons]
      refine ⟨?_, List.pairwise_cons.mpr hs⟩
      intro x hx
      rcases List.mem_cons.mp hx with rfl | hx
      · exact hab
      · exact htrans a b x ha hb (hl' x hx) hab (hs.1 x hx)

/-- Under a comparator that is total and transitive on the elements of the
list, the result of `sort` is in order. -/
theorem sort_pairwise {α : Type} (cmp : α → α → JSNumber) (P : α → Prop)
    (htotal : ∀ a b, P a → P b → MayPrecede cmp a b ∨ MayPrecede cmp b a)
    (htrans : ∀ a b c, P a → P b → P c →
      MayPrecede cmp a b → MayPrecede cmp b c → MayPrecede cmp a c)
    (l : List α) (hl : ∀ x ∈ l, P x) :
    (sort cmp l).Pairwise (MayPrecede cmp) := by
  induction l with
  | nil => simp [sort]
  | cons a l ih =>
    have hl' : ∀ x ∈ l, P x := fun x hx => hl x (List.mem_cons_of_mem _ hx)
    exact sortInsert_pairwise cmp P htotal htrans a (sort cmp l) (hl a (List.mem_cons_self _ _))
      (fun x hx => hl' x ((mem_sort cmp l x).mp hx)) (ih hl')

theorem sortInsert_filter {α : Type} (cmp : α → α → JSNumber) (p : α → Bool)
    (hp : ∀ x y, p x = true → p y = true → MayPrecede cmp x y) (a : α) (l : List α) :
    (sortInsert cmp a l).filter p = (a :: l).filter p := by
  induction l with
  | nil => simp [sortInsert]
  | cons b l ih =>
    unfold sortInsert
    split
    next hgt =>
      have hnot : ¬ (p a = true ∧ p b = true) := by
        rintro ⟨h1, h2⟩
        have := hp a b h1 h2
        rw [MayPrecede] at this
        rw [this] at hgt
        exact absurd hgt (by simp)
      rw [List.filter_cons, ih]
      by_cases hb : p b = true
      · have ha : p a = false := by
          cases hpa : p a
          · rfl
          · exact absurd ⟨hpa, hb⟩ hnot
        simp [List.filter_cons, ha, hb]
      · simp [List.filter_cons, hb]
    next => rfl

/-- The method `sort` is stable: the elements of a class whose members may
precede one another keep their relative order. -/
theorem sort_filter {α : Type} (cmp : α → α → JSNumber) (p : α → Bool)
    (hp : ∀ x y, p x = true → p y = true → MayPrecede cmp x y) (l : List α) :
    (sort cmp l).filter p = l.filter p := by
  induction l with
  | nil => rfl
  | cons a l ih =>
    show (sortInsert cmp a (sort cmp l)).filter p = _
    rw [sortInsert_filter cmp p hp, List.filter_cons, List.filter_cons, ih]

/-! ## The visible rows -/

theorem mayPrecede_byDateDesc (h : Host) (a b : Expense) :
    MayPrecede (byDateDesc h) a b ↔ h.localeCompare b.date a.date ≤ 0 := by
  unfold MayPrecede byDateDesc
  show decide (((0 : ℕ) : ℚ) < ((h.localeCompare b.date a.date : ℤ) : ℚ)) = false ↔ _
  simp

theorem matchesFilters_iff (filters : Filters) (e : Expense) :
    matchesFilters filters e = true ↔ Visible filters e := by
  unfold matchesFilters Visible yyyymm slice0
  have h1 : (String.mk (e.date.data.take 7) = filters.month) ↔
      e.date.data.take 7 = filters.month.data := by
    constructor
    · intro h; rw [← h]
    · intro h; rw [h]
  have h2 : (some e.cat = filters.cat) ↔ (filters.cat = some e.cat) := eq_comm
  simp [h1, h2]

/-- C5: when `localeCompare` is a total and transitive comparison, `filtered`
is a rearrangement of exactly the ledger records (with multiplicity) that are
visible under the filter (month unset or equal to the year-month prefix of the
date, category unset or equal to the record's); its rows are in non-increasing
order of date (a later row never compares above an earlier one); and the
records of one date are in their ledger order.  The ledger is an argument of
`filtered` and is not part of its result, so it is not reordered. -/
theorem filtered_spec (h : Host)
    (htotal : ∀ a b : String, h.localeCompare a b ≤ 0 ∨ h.localeCompare b a ≤ 0)
    (htrans : ∀ a b c : String,
      h.localeCompare a b ≤ 0 → h.localeCompare b c ≤ 0 → h.localeCompare a c ≤ 0)
    (items : List Expense) (filters : Filters) :
    (filtered h items filters).Perm (items.filter (fun e => Visible filters e)) ∧
    (filtered h items filters).Pairwise (fun a b => h.localeCompare b.date a.date ≤ 0) ∧
    ∀ d : String, (filtered h items filters).filter (fun e => e.date = d) =
      (items.filter (fun e => Visible filters e)).filter (fun e => e.date = d) := by
  have hf : items.filter (matchesFilters filters) = items.filter (fun e => Visible filters e) := by
    apply List.filter_congr
    intro e _
    by_cases hv : Visible filters e
    · simp [hv, (matchesFilters_iff filters e).mpr hv]
    · have : matchesFilters filters e = false := by
        cases hm : matchesFilters filters e
        · rfl
        · exact absurd ((matchesFilters_iff filters e).mp hm) hv
      simp [hv, this]
  unfold filtered
  rw [hf]
  refine ⟨sort_perm _ _, ?_, ?_⟩
  · have := sort_pairwise (byDateDesc h) (fun _ => True)
      (fun a b _ _ => by
        rw [mayPrecede_byDateDesc, mayPrecede_byDateDesc]
        exact (htotal b.date a.date))
      (fun a b c _ _ _ hab hbc => by
        rw [mayPrecede_byDateDesc] at *
        exact htrans c.date b.date a.date hbc hab)
      (items.filter (fun e => Visible filters e)) (fun _ _ => trivial)
    exact this.imp (fun hab => (mayPrecede_byDateDesc h _ _).mp hab)
  · intro d
    apply sort_filter
    intro x y hx hy
    rw [mayPrecede_byDateDesc]
    have hx' : x.date = d := by simpa using hx
    have hy' : y.date = d := by simpa using hy
    rw [hx', hy']
    rcases htotal d d with h1 | h1 <;> exact h1

theorem compareChars_total (a b : List Char) :
    compareChars a b ≤ 0 ∨ compareChars b a ≤ 0 := by
  induction a generalizing b with
  | nil => cases b <;> simp [compareChars]
  | cons x xs ih =>
    cases b with
    | nil => simp [compareChars]
    | cons y ys =>
      simp only [compareChars]
      rcases ih ys with h1 | h1 <;> split_ifs <;> omega

theorem compareChars_trans (a b c : List Char)
    (hab : compareChars a b ≤ 0) (hbc : compareChars b c ≤ 0) : compareChars a c ≤ 0 := by
  induction a generalizing b c with
  | nil => cases c <;> simp [compareChars]
  | cons x xs ih =>
    cases b with
    | nil => simp [compareChars] at hab
    | cons y ys =>
      cases c with
      | nil => simp [compareChars] at hbc
      | cons z zs =>
        simp only [compareChars] at hab hbc ⊢
        split_ifs at hab hbc ⊢ <;> first | omega | exact ih ys zs hab hbc

/-- Witness of C5: comparison by code point, three records, the month `2024-03`. -/
theorem filtered_spec_witness :
    ((∀ a b : String, sampleHost.localeCompare a b ≤ 0 ∨ sampleHost.localeCompare b a ≤ 0) ∧
     (∀ a b c : String, sampleHost.localeCompare a b ≤ 0 → sampleHost.localeCompare b c ≤ 0 →
        sampleHost.localeCompare a c ≤ 0)) ∧
    ((filtered sampleHost [tea, coffee, bus] ⟨"2024-03", none⟩).Perm
        ([tea, coffee, bus].filter (fun e => Visible ⟨"2024-03", none⟩ e)) ∧
     (filtered sampleHost [tea, coffee, bus] ⟨"2024-03", none⟩).Pairwise
        (fun a b => sampleHost.localeCompare b.date a.date ≤ 0) ∧
     ∀ d : String, (filtered sampleHost [tea, coffee, bus] ⟨"2024-03", none⟩).filter
        (fun e => e.date = d) =
      ([tea, coffee, bus].filter (fun e => Visible ⟨"2024-03", none⟩ e)).filter
        (fun e => e.date = d)) :=
  ⟨⟨fun a b => compareChars_total a.data b.data,
    fun a b c => compareChars_trans a.data b.data c.data⟩,
   filtered_spec sampleHost (fun a b => compareChars_total a.data b.data)
    (fun a b c => compareChars_trans a.data b.data c.data) [tea, coffee, bus] ⟨"2024-03", none⟩⟩


/-! ## Numeric values -/

theorem JSNumber.eq_fin_of_isNaN_false (x : JSNumber) (hx : x.isNaN = false) :
    x = .fin x.toRat := by
  cases x with
  | nan => simp [JSNumber.isNaN] at hx
  | fin q => rfl

theorem JSNumber.fin_add_fin (a b : ℚ) : (JSNumber.fin a + JSNumber.fin b) = .fin (a + b) := rfl

theorem JSNumber.orZero_fin (q : ℚ) : (JSNumber.fin q).orZero = .fin q := by
  unfold JSNumber.orZero JSNumber.truthy
  by_cases hq : q = 0 <;> simp [hq]

theorem foldl_add_numeric (l : List JSNumber) (hl : ∀ x ∈ l, x.isNaN = false) (a : ℚ) :
    l.foldl (fun s x => s + x) (.fin a) = .fin (a + (l.map JSNumber.toRat).sum) := by
  induction l generalizing a with
  | nil => simp
  | cons x l ih =>
    have hx := JSNumber.eq_fin_of_isNaN_false x (hl x (List.mem_cons_self _ _))
    rw [List.foldl_cons, hx, JSNumber.fin_add_fin,
      ih (fun y hy => hl y (List.mem_cons_of_mem _ hy))]
    simp [JSNumber.toRat, add_assoc]

theorem sumAmounts_numeric (records : List Expense)
    (hnum : ∀ e ∈ records, e.amt.isNaN = false) :
    sumAmounts records = .fin (amountsTotal records) := by
  have h := foldl_add_numeric (records.map (fun e => e.amt))
    (by simpa using hnum) 0
  unfold sumAmounts amountsTotal
  rw [List.foldl_map] at h
  simpa using h

/-! ## The object `map` of `byCat` -/

theorem mem_keys_mapSet (k : Category) (v : JSNumber) (m : List (Category × JSNumber))
    (c : Category) :
    c ∈ (mapSet k v m).map Prod.fst ↔ c = k ∨ c ∈ m.map Prod.fst := by
  induction m with
  | nil => simp [mapSet]
  | cons p m ih =>
    obtain ⟨k', v'⟩ := p
    unfold mapSet
    by_cases hk : k' = k
    · subst hk; simp
    · simp only [hk, if_false, List.map_cons, List.mem_cons, ih]
      tauto

theorem nodup_keys_mapSet (k : Category) (v : JSNumber) (m : List (Category × JSNumber))
    (hm : (m.map Prod.fst).Nodup) : ((mapSet k v m).map Prod.fst).Nodup := by
  induction m with
  | nil => simp [mapSet]
  | cons p m ih =>
    obtain ⟨k', v'⟩ := p
    rw [List.map_cons, List.nodup_cons] at hm
    unfold mapSet
    by_cases hk : k' = k
    · subst hk
      simp only [if_true, List.map_cons, List.nodup_cons]
      exact hm
    · simp only [hk, if_false, List.map_cons, List.nodup_cons]
      refine ⟨?_, ih hm.2⟩
      rw [mem_keys_mapSet]
      rintro (h1 | h1)
      · exact hk h1
      · exact hm.1 h1

theorem mem_mapSet (k : Category) (v : JSNumber) (m : List (Category × JSNumber))
    (hm : (m.map Prod.fst).Nodup)
    (c : Category) (w : JSNumber) (h : (c, w) ∈ mapSet k v m) :
    (c = k ∧ w = v) ∨ (c ≠ k ∧ (c, w) ∈ m) := by
  induction m with
  | nil =>
    simp [mapSet] at h
    exact Or.inl h
  | cons p m ih =>
    obtain ⟨k', v'⟩ := p
    rw [List.map_cons, List.nodup_cons] at hm
    unfold mapSet at h
    by_cases hk : k' = k
    · subst hk
      simp only [if_true, List.mem_cons, Prod.mk.injEq] at h
      rcases h with h | h
      · exact Or.inl h
      · by_cases hc : c = k'
        · subst hc
          exact absurd (List.mem_map_of_mem Prod.fst h) hm.1
        · exact Or.inr ⟨hc, List.mem_cons_of_mem _ h⟩
    · simp only [hk, if_false, List.mem_cons, Prod.mk.injEq] at h
      rcases h with ⟨h1, h2⟩ | h
      · subst h1; subst h2
        exact Or.inr ⟨hk, List.mem_cons_self _ _⟩
      · rcases ih hm.2 h with h' | ⟨h1, h2⟩
        · exact Or.inl h'
        · exact Or.inr ⟨h1, List.mem_cons_of_mem _ h2⟩

theorem mapGet_eq_none (m : List (Category × JSNumber)) (k : Category)
    (h : mapGet m k = none) : k ∉ m.map Prod.fst := by
  induction m with
  | nil => simp
  | cons p m ih =>
    obtain ⟨k', v'⟩ := p
    unfold mapGet at h ih
    by_cases hk : k = k'
    · subst hk; simp [List.lookup] at h
    · have hb : (k == k') = false := by simpa using hk
      rw [List.lookup_cons, hb] at h
      simp only [List.map_cons, List.mem_cons, not_or]
      exact ⟨hk, ih h⟩

theorem mapGet_eq_some (m : List (Category × JSNumber)) (k : Category) (v : JSNumber)
    (h : mapGet m k = some v) : (k, v) ∈ m := by
  induction m with
  | nil => simp [mapGet] at h
  | cons p m ih =>
    obtain ⟨k', v'⟩ := p
    unfold mapGet at h ih
    by_cases hk : k = k'
    · subst hk
      simp [List.lookup] at h
      subst h
      exact List.mem_cons_self _ _
    · have hb : (k == k') = false := by simpa using hk
      rw [List.lookup_cons, hb] at h
      exact List.mem_cons_of_mem _ (ih h)

theorem valuesTotal_mapSet (k : Category) (v : JSNumber) (m : List (Category × JSNumber)) :
    valuesTotal (mapSet k v m) =
      valuesTotal m - ((mapGet m k).map JSNumber.toRat).getD 0 + v.toRat := by
  induction m with
  | nil => simp [mapSet, valuesTotal, mapGet]
  | cons p m ih =>
    obtain ⟨k', v'⟩ := p
    unfold mapSet
    by_cases hk : k' = k
    · subst hk
      simp [valuesTotal, mapGet, List.lookup]
      ring
    · have hb : (k == k') = false := by simpa using (Ne.symm hk)
      simp only [hk, if_false]
      unfold valuesTotal mapGet at ih ⊢
      rw [List.map_cons, List.sum_cons, ih, List.lookup_cons, hb]
      simp only [List.map_cons, List.sum_cons]
      ring

theorem categoryMap_append (l : List Expense) (e : Expense) :
    categoryMap (l ++ [e]) =
      mapSet e.cat (mapGetOrZero (categoryMap l) e.cat + e.amt) (categoryMap l) := by
  simp [categoryMap, List.foldl_append]

theorem categoryTotal_append (l : List Expense) (e : Expense) (c : Category) :
    categoryTotal (l ++ [e]) c =
      categoryTotal l c + (if e.cat = c then e.amt.toRat else 0) := by
  unfold categoryTotal amountsTotal
  by_cases hc : e.cat = c <;> simp [List.filter_append, List.filter_cons, hc]

theorem categoryTotal_eq_zero (l : List Expense) (c : Category)
    (h : ¬ ∃ e ∈ l, e.cat = c) : categoryTotal l c = 0 := by
  unfold categoryTotal amountsTotal
  have : l.filter (fun e => e.cat = c) = [] := by
    rw [List.filter_eq_nil_iff]
    intro e he hc
    exact h ⟨e, he, by simpa using hc⟩
  simp [this]

/-- The invariant of the `forEach` of `byCat` on records with numeric amounts:
the keys are distinct, they are the categories met so far, and each value is
the total of its category. -/
theorem categoryMap_invariant (records : List Expense)
    (hnum : ∀ e ∈ records, e.amt.isNaN = false) :
    ((categoryMap records).map Prod.fst).Nodup ∧
    (∀ c, c ∈ (categoryMap records).map Prod.fst ↔ ∃ e ∈ records, e.cat = c) ∧
    (∀ c v, (c, v) ∈ categoryMap records → v = .fin (categoryTotal records c)) ∧
    valuesTotal (categoryMap records) = amountsTotal records := by
  induction records using List.reverseRecOn with
  | nil => simp [categoryMap, valuesTotal, amountsTotal]
  | append_singleton l e ih =>
    have hl : ∀ x ∈ l, x.amt.isNaN = false := fun x hx => hnum x (by simp [hx])
    have he := JSNumber.eq_fin_of_isNaN_false e.amt (hnum e (by simp))
    obtain ⟨ih1, ih2, ih3, ih4⟩ := ih hl
    have hget : mapGetOrZero (categoryMap l) e.cat = .fin (categoryTotal l e.cat) ∧
        ((mapGet (categoryMap l) e.cat).map JSNumber.toRat).getD 0 = categoryTotal l e.cat := by
      unfold mapGetOrZero
      cases hlk : mapGet (categoryMap l) e.cat with
      | none =>
        have hnot := mapGet_eq_none _ _ hlk
        rw [ih2] at hnot
        rw [categoryTotal_eq_zero l e.cat hnot]
        exact ⟨rfl, rfl⟩
      | some v =>
        have hv := ih3 _ _ (mapGet_eq_some _ _ _ hlk)
        subst hv
        exact ⟨JSNumber.orZero_fin _, rfl⟩
    have hnew : mapGetOrZero (categoryMap l) e.cat + e.amt =
        .fin (categoryTotal l e.cat + e.amt.toRat) := by
      rw [hget.1, he]; rfl
    rw [categoryMap_append, hnew]
    refine ⟨nodup_keys_mapSet _ _ _ ih1, ?_, ?_, ?_⟩
    · intro c
      rw [mem_keys_mapSet, ih2]
      constructor
      · rintro (rfl | ⟨x, hx, hc⟩)
        · exact ⟨e, by simp, rfl⟩
        · exact ⟨x, by simp [hx], hc⟩
      · rintro ⟨x, hx, hc⟩
        rcases List.mem_append.mp hx with hx | hx
        · exact Or.inr ⟨x, hx, hc⟩
        · simp at hx; subst hx; exact Or.inl hc.symm
    · intro c v hcv
      rw [categoryTotal_append]
      rcases mem_mapSet _ _ _ ih1 c v hcv with ⟨h1, h2⟩ | ⟨h1, h2⟩
      · subst h1; subst h2; simp
      · rw [ih3 c v h2]
        simp [Ne.symm h1]
    · rw [valuesTotal_mapSet, hget.2, ih4]
      have happ : amountsTotal (l ++ [e]) = amountsTotal l + e.amt.toRat := by
        simp [amountsTotal]
      rw [happ]
      show amountsTotal l - categoryTotal l e.cat + (categoryTotal l e.cat + e.amt.toRat) = _
      ring


/-! ## The category breakdown -/

theorem mayPrecede_byValueDesc (a b : Category × JSNumber) (x y : ℚ)
    (ha : a.2 = .fin x) (hb : b.2 = .fin y) :
    MayPrecede (fun a b : Category × JSNumber => b.2 - a.2) a b ↔ y ≤ x := by
  unfold MayPrecede
  simp only [ha, hb]
  show decide (((0 : ℕ) : ℚ) < y - x) = false ↔ _
  simp

/-- C7: for records whose amounts are all numbers, `groupByCategory` has no
category twice, its categories are exactly the categories that occur among the
records, the value of an entry is the sum of the amounts of the records of its
category, and the entries are in non-increasing order of value. -/
theorem groupByCategory_spec (records : List Expense)
    (hnum : ∀ e ∈ records, e.amt.isNaN = false) :
    ((groupByCategory records).map (fun p => p.1)).Nodup ∧
    (∀ c, c ∈ (groupByCategory records).map (fun p => p.1) ↔ ∃ e ∈ records, e.cat = c) ∧
    (∀ c v, (c, v) ∈ groupByCategory records →
      v = .fin ((records.filter (fun e => e.cat = c)).map (fun e => e.amt.toRat)).sum) ∧
    (groupByCategory records).Pairwise
      (fun a b => ∃ x y : ℚ, a.2 = .fin x ∧ b.2 = .fin y ∧ y ≤ x) := by
  obtain ⟨h1, h2, h3, _⟩ := categoryMap_invariant records hnum
  have hperm : (groupByCategory records).Perm (categoryMap records) := sort_perm _ _
  refine ⟨?_, ?_, ?_, ?_⟩
  · exact ((hperm.map Prod.fst).nodup_iff).mpr h1
  · intro c
    rw [← h2 c]
    exact (hperm.map Prod.fst).mem_iff
  · intro c v hcv
    exact h3 c v (hperm.mem_iff.mp hcv)
  · have hs := sort_pairwise (fun a b : Category × JSNumber => b.2 - a.2)
      (fun p => ∃ x : ℚ, p.2 = .fin x)
      (fun a b ⟨x, hx⟩ ⟨y, hy⟩ => by
        rw [mayPrecede_byValueDesc a b x y hx hy, mayPrecede_byValueDesc b a y x hy hx]
        exact le_total y x)
      (fun a b c ⟨x, hx⟩ ⟨y, hy⟩ ⟨z, hz⟩ hab hbc => by
        rw [mayPrecede_byValueDesc a b x y hx hy] at hab
        rw [mayPrecede_byValueDesc b c y z hy hz] at hbc
        rw [mayPrecede_byValueDesc a c x z hx hz]
        exact le_trans hbc hab)
      (categoryMap records) (fun p hp => ⟨_, h3 p.1 p.2 hp⟩)
    have hmem : ∀ p ∈ groupByCategory records, ∃ x : ℚ, p.2 = .fin x :=
      fun p hp => ⟨_, h3 p.1 p.2 (hperm.mem_iff.mp hp)⟩
    have hs' : (groupByCategory records).Pairwise
        (MayPrecede (fun a b : Category × JSNumber => b.2 - a.2)) := hs
    refine (List.Pairwise.and_mem.mp hs').imp ?_
    rintro a b ⟨ha, hb, hab⟩
    obtain ⟨x, hx⟩ := hmem a ha
    obtain ⟨y, hy⟩ := hmem b hb
    exact ⟨x, y, hx, hy, (mayPrecede_byValueDesc a b x y hx hy).mp hab⟩



/-- Witness of C7: three records over two categories. -/
theorem groupByCategory_spec_witness :
    (∀ e ∈ [coffee, bus, tea], e.amt.isNaN = false) ∧
    (((groupByCategory [coffee, bus, tea]).map (fun p => p.1)).Nodup ∧
     (∀ c, c ∈ (groupByCategory [coffee, bus, tea]).map (fun p => p.1) ↔
        ∃ e ∈ [coffee, bus, tea], e.cat = c) ∧
     (∀ c v, (c, v) ∈ groupByCategory [coffee, bus, tea] →
        v = .fin (([coffee, bus, tea].filter (fun e => e.cat = c)).map
          (fun e => e.amt.toRat)).sum) ∧
     (groupByCategory [coffee, bus, tea]).Pairwise
        (fun a b => ∃ x y : ℚ, a.2 = .fin x ∧ b.2 = .fin y ∧ y ≤ x)) :=
  ⟨by decide, groupByCategory_spec [coffee, bus, tea] (by decide)⟩

/-! ## Saving an edit -/

theorem saveClick_items (h : Host) (e : Expense) (st : State) :
    (saveClick h e st).items =
      st.items.map (fun x => if x.id = e.id then applyPatch x (savePatch h e) else x) := rfl

/-- C9, amended: saving the edit of the row of `e` keeps the length of the
ledger; at every position the identifier is kept, a record with another
identifier is kept whole, and a record with the identifier of `e` gets, field
by field, the pending input of the row or, where the record holds none, the
old value, with the description trimmed and the amount put through
`Math.max(0.01, ·)` (the maximum of 0.01 and the amount whenever it is a
number) in both cases.  So with no pending input the date and the category
are the old ones, the description is the old one trimmed and the amount is
`Math.max(0.01, old amount)`. -/
theorem saveClick_spec (h : Host) (e : Expense) (st : State) :
    (saveClick h e st).items.length = st.items.length ∧
    (∀ (i : Nat) (x : Expense), st.items[i]? = some x →
      ∃ y : Expense, (saveClick h e st).items[i]? = some y ∧
      y.id = x.id ∧
      (x.id ≠ e.id → y = x) ∧
      (x.id = e.id →
        y.date = e._nextDate.getD e.date ∧
        y.desc = trim (e._nextDesc.getD e.desc) ∧
        y.cat = e._nextCat.getD e.cat ∧
        y.amt = Math.max (.fin (1 / 100)) (pendingAmount h e) ∧
        (∀ q : ℚ, pendingAmount h e = .fin q → y.amt = .fin (max (1 / 100) q)))) ∧
    (e._nextAmt = none → pendingAmount h e = e.amt) ∧
    (∀ s, e._nextAmt = some s → pendingAmount h e = h.numberOfString s) ∧
    (e._nextDate = none → e._nextDesc = none → e._nextCat = none → e._nextAmt = none →
      savePatch h e =
        { date := e.date, desc := trim e.desc, cat := e.cat,
          amt := Math.max (.fin (1 / 100)) e.amt }) := by
  refine ⟨?_, ?_, ?_, ?_, ?_⟩
  · rw [saveClick_items, List.length_map]
  · intro i x hx
    rw [saveClick_items, List.getElem?_map, hx]
    refine ⟨_, rfl, ?_, ?_, ?_⟩
    · by_cases hid : x.id = e.id <;> simp [hid, applyPatch]
    · intro hid; simp [hid]
    · intro hid
      beta_reduce
      rw [if_pos hid]
      refine ⟨rfl, rfl, rfl, rfl, ?_⟩
      intro q hq
      show Math.max (.fin (1 / 100)) (pendingAmount h e) = _
      rw [hq]
      rfl
  · intro hn; simp [pendingAmount, hn]
  · intro s hs; simp [pendingAmount, hs]
  · intro h1 h2 h3 h4
    simp [savePatch, pendingAmount, h1, h2, h3, h4]


/-! ## The record invariant -/

/-- The record invariant holds of the empty ledger and is kept by
`addExpense`, `remove` and `undoDelete`. -/
theorem ledgerOk_add_remove_undo (h : Host) (uuid id : String) (st : State)
    (hst : LedgerOk st) :
    LedgerOk (emptyState st.form) ∧ LedgerOk (addExpense h uuid st) ∧
    LedgerOk (remove id st) ∧ LedgerOk (undoDelete st) := by
  obtain ⟨h1, h2⟩ := hst
  refine ⟨⟨by simp [emptyState], by simp [emptyState]⟩, ?_, ?_, ?_⟩
  · unfold addExpense
    simp only []
    split
    · exact ⟨h1, h2⟩
    · rename_i hg
      refine ⟨?_, h2⟩
      intro e he
      rcases List.mem_append.mp he with he | he
      · exact h1 e he
      · simp only [List.mem_singleton] at he
        subst he
        simp only [Bool.or_eq_true, decide_eq_true_eq, not_or, Bool.not_eq_true] at hg
        obtain ⟨⟨⟨hd, _⟩, hn⟩, hle⟩ := hg
        cases hp : h.parseFloat st.form.amt with
        | nan => rw [hp] at hn; simp [JSNumber.isNaN] at hn
        | fin q =>
          rw [hp] at hle
          have hq : 0 < q := by
            have : decide (q ≤ ((0 : ℕ) : ℚ)) = false := hle
            simpa using this
          have hgt : (JSNumber.fin q).gt 0 = true := by
            show decide (((0 : ℕ) : ℚ) < q) = true
            simpa using hq
          simp [recordOk, hgt, hd]
  · refine ⟨?_, ?_⟩
    · intro e he
      exact h1 e (List.mem_filter.mp he).1
    · intro r hr
      exact h1 r (List.mem_of_find?_eq_some hr)
  · unfold undoDelete
    cases hl : st.lastDeleted with
    | none => exact ⟨h1, by simp [hl]⟩
    | some r =>
      refine ⟨?_, by simp⟩
      intro e he
      rcases List.mem_cons.mp he with rfl | he
      · exact h2 e hl
      · exact h1 e he

/-- C10 fails on the edit path: a ledger that satisfies the record invariant
loses it when an edit is saved with a description of white space only (the
stored description is empty) or with an amount text that is not a number (the
stored amount is `NaN`). -/
theorem saveClick_breaks_invariant :
    (LedgerOk (singleLedger coffeeBlanked) ∧
      (saveClick sampleHost coffeeBlanked (singleLedger coffeeBlanked)).items.map (fun e => e.desc)
        = [""] ∧
      ¬ LedgerOk (saveClick sampleHost coffeeBlanked (singleLedger coffeeBlanked))) ∧
    (LedgerOk (singleLedger coffeeNonNumeric) ∧
      (saveClick sampleHost coffeeNonNumeric (singleLedger coffeeNonNumeric)).items.map
        (fun e => e.amt) = [.nan] ∧
      ¬ LedgerOk (saveClick sampleHost coffeeNonNumeric (singleLedger coffeeNonNumeric))) := by
  decide!


/-! ## Totals with an amount that is not a number -/

theorem JSNumber.add_nan (x : JSNumber) : x + JSNumber.nan = .nan := by
  cases x <;> rfl

theorem JSNumber.nan_add (x : JSNumber) : JSNumber.nan + x = .nan := by
  cases x <;> rfl

theorem foldl_add_from_nan (l : List Expense) :
    l.foldl (fun s e => s + e.amt) JSNumber.nan = .nan := by
  induction l with
  | nil => rfl
  | cons a l ih => rw [List.foldl_cons, JSNumber.nan_add, ih]

theorem foldl_add_of_nan (l : List Expense) (acc : JSNumber)
    (h : ∃ e ∈ l, e.amt.isNaN = true) :
    l.foldl (fun s e => s + e.amt) acc = .nan := by
  induction l generalizing acc with
  | nil => obtain ⟨e, he, _⟩ := h; cases he
  | cons a l ih =>
    rw [List.foldl_cons]
    by_cases ha : a.amt.isNaN = true
    · have : a.amt = .nan := by
        cases hx : a.amt with
        | nan => rfl
        | fin q => rw [hx] at ha; simp [JSNumber.isNaN] at ha
      rw [this, JSNumber.add_nan, foldl_add_from_nan]
    · obtain ⟨e, he, hn⟩ := h
      rcases List.mem_cons.mp he with rfl | he
      · exact absurd hn ha
      · exact ih _ ⟨e, he, hn⟩

/-- C11, as stated, fails: the amounts 4.5 and 3 add up to 7.5, but with a
record in between whose amount is `NaN` the sum is `NaN`, not 7.5; the same
holds of the month total. -/
theorem sumAmounts_nan_poisons :
    busNaN.amt.isNaN = true ∧
    sumAmounts [coffee, tea] = .fin (15 / 2) ∧
    sumAmounts [coffee, busNaN, tea] = .nan ∧
    totalThisMonth [coffee, busNaN, tea] "2024-03" = .nan ∧
    totalThisMonth [coffee, tea] "2024-03" = .fin (9 / 2) := by
  decide!

/-- C11, amended: `sumAmounts` is the arithmetic sum of the amounts when every
amount is a number, and `NaN` as soon as one amount is `NaN`, whatever the
others are; `currency` displays a `NaN` total as it displays 0. -/
theorem sumAmounts_spec (records : List Expense) (f : Formatter) :
    sumAmounts records =
      (if records.all (fun e => !e.amt.isNaN) then
        .fin ((records.map (fun e => e.amt.toRat)).sum)
      else .nan) ∧
    currency f .nan = currency f (.fin 0) := by
  refine ⟨?_, rfl⟩
  by_cases hall : records.all (fun e => !e.amt.isNaN) = true
  · rw [if_pos hall]
    have hnum : ∀ e ∈ records, e.amt.isNaN = false := by
      intro e he
      have := List.all_eq_true.mp hall e he
      simpa using this
    exact sumAmounts_numeric records hnum
  · rw [if_neg hall]
    have hex : ∃ e ∈ records, e.amt.isNaN = true := by
      by_contra hno
      apply hall
      rw [List.all_eq_true]
      intro e he
      cases hx : e.amt.isNaN
      · rfl
      · exact absurd ⟨e, he, hx⟩ hno
    exact foldl_add_of_nan records _ hex

/-! ## The exported text -/

/-- Un-doubling undoes the doubling of double quotes. -/
theorem undouble_doubleQuotes (l : List Char) : undouble (doubleQuotes l) = some l := by
  induction l with
  | nil => rfl
  | cons c rest ih =>
    unfold doubleQuotes
    by_cases hc : c = dquote
    · subst hc
      simp only [if_true]
      simp [undouble, ih]
    · simp only [hc, if_false]
      cases hr : doubleQuotes rest with
      | nil =>
        rw [hr] at ih
        simp only [undouble] at ih ⊢
        simp only [hc, if_false]
        cases rest with
        | nil => rfl
        | cons _ _ => simp at ih
      | cons d r =>
        rw [hr] at ih
        simp only [undouble, hc, if_false, ih, Option.map_some']

/-- Reading a written cell back gives the value. -/
theorem unquote_quote (s : String) : unquote (quote s) = some s := by
  unfold unquote quote
  simp only [List.getLast?_append, List.getLast?_singleton, List.dropLast_concat,
    undouble_doubleQuotes, Option.map_some']
  simp

/-- C12: the exported text is the rows joined by line feeds, each row being its
cells joined by commas and each cell the value between double quotes with its
double quotes doubled; the rows are the header `date`, `description`,
`category`, `amount` followed by one row per record, in ledger order, with the
date, description, category and amount (as text); reading a cell back by
stripping the outer quotes and un-doubling the inner ones gives the value
exactly, for every string, so the quoting is injective. -/
theorem exportCsv_spec (f : Formatter) (items : List Expense) :
    exportCsv f items =
      "\n".intercalate ((rows f items).map (fun r => ",".intercalate (r.map quote))) ∧
    (rows f items).length = items.length + 1 ∧
    (rows f items)[0]? = some ["date", "description", "category", "amount"] ∧
    (∀ (i : Nat) (e : Expense), items[i]? = some e →
      (rows f items)[i + 1]? = some [e.date, e.desc, e.cat.name, f.numberToString e.amt]) ∧
    (∀ s : String, (quote s).data = dquote :: (doubleQuotes s.data ++ [dquote])) ∧
    (∀ s : String, unquote (quote s) = some s) ∧
    Function.Injective quote := by
  refine ⟨rfl, by simp [rows], by simp [rows], ?_, fun _ => rfl, unquote_quote, ?_⟩
  · intro i e he
    simp [rows, he]
  · intro a b hab
    have := congrArg unquote hab
    rw [unquote_quote, unquote_quote] at this
    exact Option.some.inj this

/-- The exported text of two records, the second with double quotes, a comma
and a line feed in its description. -/
theorem exportCsv_example :
    exportCsv sampleFormatter [coffee, quip] =
      "\x22date\x22,\x22description\x22,\x22category\x22,\x22amount\x22\n" ++
      "\x222024-03-01\x22,\x22Coffee\x22,\x22Food\x22,\x224.5\x22\n" ++
      "\x222024-03-09\x22,\x22He said \x22\x22hi\x22\x22, twice\nand left\x22,\x22Other\x22,\x221.25\x22" ∧
    unquote (quote quip.desc) = some quip.desc := by
  decide!

/-! ## The category breakdown with rounding -/

/-- The read `map[c] || 0` after the `forEach` over numeric records, with exact operators. -/
theorem mapGetOrZero_categoryMap (l : List Expense) (hl : ∀ e ∈ l, e.amt.isNaN = false)
    (c : Category) : mapGetOrZero (categoryMap l) c = .fin (categoryTotal l c) := by
  obtain ⟨_, h2, h3, _⟩ := categoryMap_invariant l hl
  unfold mapGetOrZero
  cases hlk : mapGet (categoryMap l) c with
  | none =>
    have hnot := mapGet_eq_none _ _ hlk
    rw [h2] at hnot
    rw [categoryTotal_eq_zero l c hnot]
    rfl
  | some v =>
    have hv := h3 _ _ (mapGet_eq_some _ _ _ hlk)
    subst hv
    exact JSNumber.orZero_fin _

/-- When no addition rounds, the rounded reduction is the exact sum. -/
theorem rounded_sumAmounts_exact (rnd : ℚ → ℚ) (records : List Expense)
    (hnum : ∀ e ∈ records, e.amt.isNaN = false)
    (hexact : ∀ l : List ℚ, l.Sublist (records.map (fun e => e.amt.toRat)) → rnd l.sum = l.sum) :
    Rounded.sumAmounts rnd records = .fin (amountsTotal records) := by
  induction records using List.reverseRecOn with
  | nil => rfl
  | append_singleton l e ih =>
    have hl : ∀ x ∈ l, x.amt.isNaN = false := fun x hx => hnum x (by simp [hx])
    have he := JSNumber.eq_fin_of_isNaN_false e.amt (hnum e (by simp))
    have hsub : ∀ l' : List ℚ, l'.Sublist (l.map (fun e => e.amt.toRat)) → rnd l'.sum = l'.sum := by
      intro l' hl'
      apply hexact
      rw [List.map_append]
      exact hl'.trans (List.sublist_append_left _ _)
    have hwhole := hexact _ (List.Sublist.refl _)
    have hstep : Rounded.sumAmounts rnd (l ++ [e]) =
        Rounded.add rnd (Rounded.sumAmounts rnd l) e.amt := by
      simp [Rounded.sumAmounts, List.foldl_append]
    rw [hstep, ih hl hsub, he]
    show JSNumber.fin (rnd (amountsTotal l + e.amt.toRat)) = _
    have happ : amountsTotal (l ++ [e]) = amountsTotal l + e.amt.toRat := by
      simp [amountsTotal]
    rw [happ]
    congr 1
    rw [← happ]
    exact hwhole

/-- When no addition rounds, the rounded `forEach` builds the exact object. -/
theorem rounded_categoryMap_exact (rnd : ℚ → ℚ) (records : List Expense)
    (hnum : ∀ e ∈ records, e.amt.isNaN = false)
    (hexact : ∀ l : List ℚ, l.Sublist (records.map (fun e => e.amt.toRat)) → rnd l.sum = l.sum) :
    Rounded.categoryMap rnd records = categoryMap records := by
  induction records using List.reverseRecOn with
  | nil => rfl
  | append_singleton l e ih =>
    have hl : ∀ x ∈ l, x.amt.isNaN = false := fun x hx => hnum x (by simp [hx])
    have he := JSNumber.eq_fin_of_isNaN_false e.amt (hnum e (by simp))
    have hsub : ∀ l' : List ℚ, l'.Sublist (l.map (fun e => e.amt.toRat)) → rnd l'.sum = l'.sum := by
      intro l' hl'
      apply hexact
      rw [List.map_append]
      exact hl'.trans (List.sublist_append_left _ _)
    have hstep : Rounded.categoryMap rnd (l ++ [e]) =
        mapSet e.cat (Rounded.add rnd (mapGetOrZero (Rounded.categoryMap rnd l) e.cat) e.amt)
          (Rounded.categoryMap rnd l) := by
      simp [Rounded.categoryMap, List.foldl_append]
    rw [hstep, ih hl hsub, categoryMap_append, mapGetOrZero_categoryMap l hl, he]
    have hcat : rnd (categoryTotal l e.cat + e.amt.toRat) =
        categoryTotal l e.cat + e.amt.toRat := by
      have h1 : categoryTotal (l ++ [e]) e.cat = categoryTotal l e.cat + e.amt.toRat := by
        rw [categoryTotal_append]; simp
      rw [← h1]
      unfold categoryTotal amountsTotal
      exact hexact _ (List.Sublist.map _ (List.filter_sublist _))
    show mapSet e.cat (.fin (rnd (categoryTotal l e.cat + e.amt.toRat))) _ =
      mapSet e.cat (.fin (categoryTotal l e.cat + e.amt.toRat)) _
    rw [hcat]

/-- The total over the categories `ks` and a further category `c`. -/
theorem amountsTotal_filter_mem_append (records : List Expense) (ks : List Category)
    (c : Category) (hc : c ∉ ks) :
    amountsTotal (records.filter (fun e => e.cat ∈ ks ++ [c])) =
      amountsTotal (records.filter (fun e => e.cat ∈ ks)) + categoryTotal records c := by
  unfold categoryTotal amountsTotal
  induction records with
  | nil => simp
  | cons a l ih =>
    by_cases h1 : a.cat = c
    · have h2 : a.cat ∉ ks := h1 ▸ hc
      simp only [List.filter_cons, List.mem_append, List.mem_singleton, h1, h2, hc,
        or_true, decide_True, if_true, decide_False, Bool.false_eq_true, if_false,
        List.map_cons, List.sum_cons] at ih ⊢
      rw [ih]; ring
    · by_cases h2 : a.cat ∈ ks
      · simp only [List.filter_cons, List.mem_append, List.mem_singleton, h1, h2,
          true_or, or_false, decide_True, if_true, decide_False, Bool.false_eq_true, if_false,
          List.map_cons, List.sum_cons] at ih ⊢
        rw [ih]; ring
      · simp only [List.filter_cons, List.mem_append, List.mem_singleton, h1, h2,
          or_self, decide_False, Bool.false_eq_true, if_false] at ih ⊢
        exact ih

/-- When no addition rounds, the total of entries with distinct categories is the
total of the records of these categories. -/
theorem rounded_entriesTotal_exact (rnd : ℚ → ℚ) (records : List Expense)
    (hexact : ∀ l : List ℚ, l.Sublist (records.map (fun e => e.amt.toRat)) → rnd l.sum = l.sum)
    (entries : List (Category × JSNumber))
    (hkeys : (entries.map Prod.fst).Nodup)
    (hvals : ∀ c v, (c, v) ∈ entries → v = .fin (categoryTotal records c)) :
    Rounded.entriesTotal rnd entries =
      .fin (amountsTotal (records.filter (fun e => e.cat ∈ entries.map Prod.fst))) := by
  induction entries using List.reverseRecOn with
  | nil => simp [Rounded.entriesTotal, amountsTotal]; rfl
  | append_singleton es p ih =>
    obtain ⟨c, v⟩ := p
    rw [List.map_append, List.map_singleton] at hkeys ⊢
    have hnd := List.nodup_append.mp hkeys
    have hc : c ∉ es.map Prod.fst := by
      intro hmem
      exact hnd.2.2 hmem (List.mem_singleton_self c)
    have hv : v = .fin (categoryTotal records c) := hvals c v (by simp)
    have hstep : Rounded.entriesTotal rnd (es ++ [(c, v)]) =
        Rounded.add rnd (Rounded.entriesTotal rnd es) v := by
      simp [Rounded.entriesTotal, List.foldl_append]
    rw [hstep, ih hnd.1 (fun c' v' h' => hvals c' v' (by simp [h'])), hv]
    show JSNumber.fin (rnd (_ + _)) = _
    rw [← amountsTotal_filter_mem_append records _ c hc]
    congr 1
    unfold amountsTotal
    exact hexact _ (List.Sublist.map _ (List.filter_sublist _))

/-- C6, amended: for records whose amounts are all numbers and such that the
sum of every sub-collection of the amounts is left unchanged by the rounding
(no addition rounds), adding up the totals of the entries of `byCat` gives
`sumAmounts` of the same records, and that sum is a number. -/
theorem rounded_groupByCategory_total (rnd : ℚ → ℚ) (records : List Expense)
    (hnum : ∀ e ∈ records, e.amt.isNaN = false)
    (hexact : ∀ l ∈ (records.map (fun e => e.amt.toRat)).sublists, rnd l.sum = l.sum) :
    Rounded.entriesTotal rnd (Rounded.groupByCategory rnd records) =
      Rounded.sumAmounts rnd records ∧
    (Rounded.sumAmounts rnd records).isNaN = false := by
  have hex : ∀ l : List ℚ, l.Sublist (records.map (fun e => e.amt.toRat)) → rnd l.sum = l.sum :=
    fun l hl => hexact l (List.mem_sublists.mpr hl)
  obtain ⟨h1, h2, h3, _⟩ := categoryMap_invariant records hnum
  have hperm : (Rounded.groupByCategory rnd records).Perm (categoryMap records) := by
    unfold Rounded.groupByCategory
    rw [rounded_categoryMap_exact rnd records hnum hex]
    exact sort_perm _ _
  have hkeys : ((Rounded.groupByCategory rnd records).map Prod.fst).Nodup :=
    ((hperm.map Prod.fst).nodup_iff).mpr h1
  have hvals : ∀ c v, (c, v) ∈ Rounded.groupByCategory rnd records →
      v = .fin (categoryTotal records c) :=
    fun c v hcv => h3 c v (hperm.mem_iff.mp hcv)
  have hall : records.filter
      (fun e => e.cat ∈ (Rounded.groupByCategory rnd records).map Prod.fst) = records := by
    rw [List.filter_eq_self]
    intro e he
    have : e.cat ∈ (categoryMap records).map Prod.fst := (h2 e.cat).mpr ⟨e, he, rfl⟩
    simpa using (hperm.map Prod.fst).mem_iff.mpr this
  rw [rounded_entriesTotal_exact rnd records hex _ hkeys hvals, hall,
    rounded_sumAmounts_exact rnd records hnum hex]
  exact ⟨rfl, rfl⟩

/-- Witness of the amended C6: binary64 rounding and the amounts 4.5, 2 and 3. -/
theorem rounded_groupByCategory_total_witness :
    ((∀ e ∈ [coffee, bus, tea], e.amt.isNaN = false) ∧
      (∀ l ∈ ([coffee, bus, tea].map (fun e => e.amt.toRat)).sublists,
        round64 l.sum = l.sum)) ∧
    (Rounded.entriesTotal round64 (Rounded.groupByCategory round64 [coffee, bus, tea]) =
        Rounded.sumAmounts round64 [coffee, bus, tea] ∧
      (Rounded.sumAmounts round64 [coffee, bus, tea]).isNaN = false) :=
  ⟨⟨by decide, by decide!⟩,
    rounded_groupByCategory_total round64 [coffee, bus, tea] (by decide) (by decide!)⟩

/-- C6, as stated, fails: with the binary64 amounts 0.1 (Food), 0.1 (Transport)
and 1.1 (Food), `sumAmounts` is 1.3 (5854679515581645 / 2^52) and the totals of
the entries of `byCat`, 1.2000000000000002 and 0.1, add up to
1.3000000000000003 (2927339757790823 / 2^51). -/
theorem rounded_groupByCategory_total_differs :
    (∀ e ∈ [dimeFood, dimeTransport, snack], e.amt.isNaN = false) ∧
    Rounded.sumAmounts round64 [dimeFood, dimeTransport, snack] =
      .fin (5854679515581645 / 4503599627370496) ∧
    Rounded.entriesTotal round64
        (Rounded.groupByCategory round64 [dimeFood, dimeTransport, snack]) =
      .fin (2927339757790823 / 2251799813685248) ∧
    Rounded.entriesTotal round64
        (Rounded.groupByCategory round64 [dimeFood, dimeTransport, snack]) ≠
      Rounded.sumAmounts round64 [dimeFood, dimeTransport, snack] := by
  decide!

/-! ## The budget bar with rounding -/

/-- C8, as stated, fails three times: with a total of 100 and a budget of 0 the
total exceeds the budget and no flag is rendered; at (7, 100) the code's
`(7 / 100) * 100` is 7.000000000000001 in binary64 where the specification's
`100 * 7 / 100` is 7; and a total that is `NaN` gives `NaN`, not a minimum. -/
theorem budgetUtilization_counterexamples :
    ((JSNumber.fin 100).gt (.fin 0) = true ∧ overBudgetShown (.fin 100) (.fin 0) = false) ∧
    (Rounded.pct round64 (.fin 7) (.fin 100) = .fin (7881299347898369 / 1125899906842624) ∧
      Rounded.pctFormula round64 (.fin 7) (.fin 100) = .fin 7 ∧
      Rounded.pct round64 (.fin 7) (.fin 100) ≠ Rounded.pctFormula round64 (.fin 7) (.fin 100)) ∧
    (Rounded.pct round64 .nan (.fin 600) = .nan) := by
  decide!

/-- C8, amended: `pct` is 0 when the budget is `≤ 0` or not a number; for a
budget `> 0` it is `NaN` when the total is `NaN` and otherwise
`min(100, (total / budget) * 100)` with the quotient and the product each
rounded, which is `min(100, 100 * total / budget)` whenever neither of the two
rounds; the text "over budget" is rendered exactly when total and budget are
numbers with `budget > 0` and `total > budget`; in binary64 `(450, 600)` gives
75 and no flag, `(700, 600)` gives 100 and the flag, `(100, 0)` gives 0 and no
flag. -/
theorem rounded_pct_spec (rnd : ℚ → ℚ) (total budget : JSNumber) :
    Rounded.pct rnd total budget =
      (match total, budget with
        | .fin t, .fin b => if b ≤ 0 then .fin 0 else .fin (min 100 (rnd (rnd (t / b) * 100)))
        | .nan, .fin b => if b ≤ 0 then .fin 0 else .nan
        | _, .nan => .fin 0) ∧
    (∀ t b : ℚ, 0 < b → rnd (t / b) = t / b → rnd (t / b * 100) = t / b * 100 →
      Rounded.pct rnd (.fin t) (.fin b) = .fin (min 100 (100 * t / b))) ∧
    (overBudgetShown total budget = true ↔
      ∃ t b : ℚ, total = .fin t ∧ budget = .fin b ∧ 0 < b ∧ b < t) ∧
    (Rounded.pct round64 (.fin 450) (.fin 600) = .fin 75 ∧
      overBudgetShown (.fin 450) (.fin 600) = false) ∧
    (Rounded.pct round64 (.fin 700) (.fin 600) = .fin 100 ∧
      overBudgetShown (.fin 700) (.fin 600) = true) ∧
    (Rounded.pct round64 (.fin 100) (.fin 0) = .fin 0 ∧
      overBudgetShown (.fin 100) (.fin 0) = false) := by
  have hgt : ∀ a b : ℚ, (JSNumber.fin a).gt (.fin b) = decide (b < a) := fun _ _ => rfl
  have hgt0 : ∀ a : ℚ, (JSNumber.fin a).gt 0 = decide (0 < a) := fun a => by
    show decide (((0 : ℕ) : ℚ) < a) = _
    simp
  have hfin : ∀ t b : ℚ, 0 < b →
      Rounded.pct rnd (.fin t) (.fin b) = .fin (min 100 (rnd (rnd (t / b) * 100))) := by
    intro t b hb
    unfold Rounded.pct
    rw [hgt0]
    simp only [hb, decide_True, if_true]
    show Math.min (.fin ((100 : ℕ) : ℚ))
      (Rounded.mul rnd (Rounded.div rnd (.fin t) (.fin b)) (.fin ((100 : ℕ) : ℚ))) = _
    simp only [Rounded.div, Rounded.mul, Math.min, ne_of_gt hb, if_false]
    norm_num
  have hnon : ∀ (x : JSNumber) (b : ℚ), b ≤ 0 → Rounded.pct rnd x (.fin b) = .fin 0 := by
    intro x b hb
    unfold Rounded.pct
    rw [hgt0]
    simp only [not_lt.mpr hb, decide_False, Bool.false_eq_true, if_false]
    rfl
  refine ⟨?_, ?_, ?_, ?_, ?_, ?_⟩
  · cases total with
    | nan =>
      cases budget with
      | nan => rfl
      | fin b =>
        by_cases hb : b ≤ 0
        · simp only [hb, if_true]; exact hnon _ b hb
        · simp only [hb, if_false]
          unfold Rounded.pct
          rw [hgt0]
          simp only [not_le.mp hb, decide_True, if_true]
          rfl
    | fin t =>
      cases budget with
      | nan => rfl
      | fin b =>
        by_cases hb : b ≤ 0
        · simp only [hb, if_true]; exact hnon _ b hb
        · simp only [hb, if_false]; exact hfin t b (not_le.mp hb)
  · intro t b hb h1 h2
    rw [hfin t b hb, h1, h2]
    congr 2
    ring
  · unfold overBudgetShown budgetBarShown
    cases total with
    | nan =>
      cases budget with
      | nan => simp [JSNumber.gt]
      | fin b => simp [JSNumber.gt]
    | fin t =>
      cases budget with
      | nan => simp [JSNumber.gt]
      | fin b =>
        rw [hgt0, hgt]
        simp
  all_goals decide!

/-! ## Saving an edit: what an untouched field becomes -/

/-- C9, as stated, fails: a record added with the amount 0.001 and saved with
no field touched gets the amount 0.01; and after `Chai` is typed in the
description of the row of `tea` and the edit is cancelled, the record still
holds the typed text, so saving a later edit with no field touched stores
`Chai` in place of `Tea`. -/
theorem saveClick_untouched_not_kept :
    ((addExpense sampleHost "p" (emptyState pennyForm)).items = [penny] ∧
      penny._nextAmt = none ∧ penny.amt = .fin (1 / 1000) ∧
      (saveClick sampleHost penny (startEdit "p" (singleLedger penny))).items.map
        (fun e => e.amt) = [.fin (1 / 100)]) ∧
    ((cancelEdit (onChangeDesc "c" "Chai" (startEdit "c" (singleLedger tea)))).items
        = [teaPending] ∧
      tea.desc = "Tea" ∧
      (saveClick sampleHost teaPending (startEdit "c" (singleLedger teaPending))).items.map
        (fun e => e.desc) = ["Chai"]) := by
  decide!

end ExpenseTracker
